import Mathlib

/-! # STM32 USB keyboard: HID report assembler and matrix debounce scanner

A shallow embedding of `Core/Src/usb_keyboard.c` and `Core/Src/matrix_keyboard.c`.

* C bytes (`uint8_t`) and ticks (`uint32_t`) are natural numbers; wrap-around is written
  explicitly (`% 256`, `% 4294967296`) wherever the C code does arithmetic on them.
* The file-scope `static` variables of each C file become the fields of a state record, and
  each C function becomes a function from the old state to the new one.
* An array access outside the bounds of a C array is undefined behaviour; it is modelled by the
  result `none`, so that `= some s` also says that no such access happened.
* Calls of the USB transport `USBD_HID_SendReport` and of `Matrix_Key_Callback` are returned as
  a list of events, in call order.
-/

/-! ## `uint8_t[6]` arrays -/

/-- A C array `uint8_t[6]`, one field per slot. -/
structure Arr6 where
  e0 : Nat
  e1 : Nat
  e2 : Nat
  e3 : Nat
  e4 : Nat
  e5 : Nat
deriving DecidableEq, Repr

/-- Read `a[i]`; `none` when `i` is outside the array. -/
def Arr6.get? (a : Arr6) : Nat → Option Nat
  | 0 => some a.e0
  | 1 => some a.e1
  | 2 => some a.e2
  | 3 => some a.e3
  | 4 => some a.e4
  | 5 => some a.e5
  | _ => none

/-- Write `a[i] = v`; `none` when `i` is outside the array. -/
def Arr6.set? (a : Arr6) (i v : Nat) : Option Arr6 :=
  match i with
  | 0 => some { a with e0 := v }
  | 1 => some { a with e1 := v }
  | 2 => some { a with e2 := v }
  | 3 => some { a with e3 := v }
  | 4 => some { a with e4 := v }
  | 5 => some { a with e5 := v }
  | _ => none

/-- The six slots in index order. -/
def Arr6.toList (a : Arr6) : List Nat := [a.e0, a.e1, a.e2, a.e3, a.e4, a.e5]

/-- The array `{0}` (also the result of `memset(a, 0, sizeof a)`). -/
def Arr6.zero : Arr6 := ⟨0, 0, 0, 0, 0, 0⟩

/-! ## State of `usb_keyboard.c` -/

/-- The `USB_KeyboardReport_t` struct of `usb_keyboard.h`: eight bytes, no padding. -/
structure USB_KeyboardReport_t where
  modifier : Nat
  reserved : Nat
  keycode : Arr6
deriving DecidableEq, Repr

/-- The file-scope variables of `usb_keyboard.c`. -/
structure UsbState where
  keyboard_report : USB_KeyboardReport_t
  keyboard_report_last : USB_KeyboardReport_t
  pressed_keys : Arr6
  key_count : Nat
deriving DecidableEq, Repr

/-- The report `{0}`. -/
def USB_KeyboardReport_t.zero : USB_KeyboardReport_t := ⟨0, 0, Arr6.zero⟩

/-- The eight bytes of a report in memory order (what `memcpy`/`memcmp` see). -/
def USB_KeyboardReport_t.bytes (r : USB_KeyboardReport_t) : List Nat :=
  r.modifier :: r.reserved :: r.keycode.toList

/-- The function `USB_Keyboard_Init`: three `memset`s and `key_count = 0`. The result does not depend on the
previous state, so this is also the state set up by the static initialisers. -/
def USB_Keyboard_Init : UsbState :=
  { keyboard_report := USB_KeyboardReport_t.zero
    keyboard_report_last := USB_KeyboardReport_t.zero
    pressed_keys := Arr6.zero
    key_count := 0 }

/-- The search loop `for (i = ...; i < key_count; i++) if (pressed_keys[i] == key_code) ...`
shared by `USB_Keyboard_PressKey` and `USB_Keyboard_ReleaseKey`, started at index `i` with `n`
iterations left (`n = key_count - i`).  `some (some j)`: the test succeeded at index `j`;
`some none`: the loop ran to its end; `none`: an access outside `pressed_keys`. -/
def findKey (pressed_keys : Arr6) (key_code : Nat) (i : Nat) : Nat → Option (Option Nat)
  | 0 => some none
  | n + 1 =>
    match pressed_keys.get? i with
    | none => none
    | some v => if v = key_code then some (some i) else findKey pressed_keys key_code (i + 1) n

/-- The function `USB_Keyboard_PressKey`; `none` stands for an access outside an array. -/
def USB_Keyboard_PressKey (s : UsbState) (key_code : Nat) : Option UsbState :=
  if key_code = 0 then some s
  else
    match findKey s.pressed_keys key_code 0 s.key_count with
    | none => none
    | some (some _) => some s
    | some none =>
      if s.key_count < 6 then
        match s.pressed_keys.set? s.key_count key_code,
              s.keyboard_report.keycode.set? s.key_count key_code with
        | some p, some c =>
          some { s with
            pressed_keys := p
            keyboard_report := { s.keyboard_report with keycode := c }
            key_count := (s.key_count + 1) % 256 }
        | _, _ => none
      else some s

/-- The shift loop of `USB_Keyboard_ReleaseKey`,
`for (j = ...; j < key_count - 1; j++) { pressed_keys[j] = pressed_keys[j + 1];
keyboard_report.keycode[j] = keyboard_report.keycode[j + 1]; }`,
started at index `j` with `n` iterations left (`n = key_count - 1 - j`). -/
def shiftDown (pressed_keys keycode : Arr6) (j : Nat) : Nat → Option (Arr6 × Arr6)
  | 0 => some (pressed_keys, keycode)
  | n + 1 =>
    match pressed_keys.get? (j + 1) with
    | none => none
    | some v =>
      match pressed_keys.set? j v with
      | none => none
      | some p =>
        match keycode.get? (j + 1) with
        | none => none
        | some w =>
          match keycode.set? j w with
          | none => none
          | some c => shiftDown p c (j + 1) n

/-- The function `USB_Keyboard_ReleaseKey`; `none` stands for an access outside an array.
Inside the search loop `key_count >= 1`, so `key_count - 1` is a natural number. -/
def USB_Keyboard_ReleaseKey (s : UsbState) (key_code : Nat) : Option UsbState :=
  if key_code = 0 then some s
  else
    match findKey s.pressed_keys key_code 0 s.key_count with
    | none => none
    | some none => some s
    | some (some i) =>
      match shiftDown s.pressed_keys s.keyboard_report.keycode i (s.key_count - 1 - i) with
      | none => none
      | some (p, c) =>
        match p.set? (s.key_count - 1) 0, c.set? (s.key_count - 1) 0 with
        | some p1, some c1 =>
          some { s with
            pressed_keys := p1
            keyboard_report := { s.keyboard_report with keycode := c1 }
            key_count := (s.key_count + 255) % 256 }
        | _, _ => none

/-- The function `USB_Keyboard_ReleaseAll`. -/
def USB_Keyboard_ReleaseAll (s : UsbState) : UsbState :=
  { s with
    pressed_keys := Arr6.zero
    keyboard_report := { s.keyboard_report with keycode := Arr6.zero, modifier := 0 }
    key_count := 0 }

/-- The function `USB_Keyboard_SetModifier`. -/
def USB_Keyboard_SetModifier (s : UsbState) (modifier : Nat) : UsbState :=
  { s with keyboard_report := { s.keyboard_report with modifier := modifier } }

/-- The function `USB_Keyboard_ClearModifier`. -/
def USB_Keyboard_ClearModifier (s : UsbState) : UsbState :=
  { s with keyboard_report := { s.keyboard_report with modifier := 0 } }

/-- The function `USB_Keyboard_SendReport`: the new state and the reports handed to `USBD_HID_SendReport`
by this call, in order.  `memcmp` over the eight bytes of the struct is equality of reports. -/
def USB_Keyboard_SendReport (s : UsbState) : UsbState × List USB_KeyboardReport_t :=
  if s.keyboard_report = s.keyboard_report_last then (s, [])
  else ({ s with keyboard_report_last := s.keyboard_report }, [s.keyboard_report])

/-- The HID usage codes `KEY_1` .. `KEY_9` of `usb_keyboard.h`. -/
def KEY_1 : Nat := 0x1E
def KEY_2 : Nat := 0x1F
def KEY_3 : Nat := 0x20
def KEY_4 : Nat := 0x21
def KEY_5 : Nat := 0x22
def KEY_6 : Nat := 0x23
def KEY_7 : Nat := 0x24
def KEY_8 : Nat := 0x25
def KEY_9 : Nat := 0x26

/-- The table `matrix_to_usb_hid[9]`. -/
def matrix_to_usb_hid : List Nat :=
  [KEY_1, KEY_2, KEY_3, KEY_4, KEY_5, KEY_6, KEY_7, KEY_8, KEY_9]

/-- The function `USB_Keyboard_HandleMatrixKey`: the new state and the reports handed to the transport.
`none` stands for an access outside `matrix_to_usb_hid` or outside a key array. -/
def USB_Keyboard_HandleMatrixKey (s : UsbState) (matrix_key pressed : Nat) :
    Option (UsbState × List USB_KeyboardReport_t) :=
  if matrix_key ≥ 9 then some (s, [])
  else
    match matrix_to_usb_hid[matrix_key]? with
    | none => none
    | some usb_key =>
      match (if pressed ≠ 0 then USB_Keyboard_PressKey s usb_key
             else USB_Keyboard_ReleaseKey s usb_key) with
      | none => none
      | some s1 => some (USB_Keyboard_SendReport s1)

/-- The function `USB_Keyboard_GetReport`: the bytes copied into the caller's buffer and the returned
length `sizeof(keyboard_report)`. -/
def USB_Keyboard_GetReport (s : UsbState) : List Nat × Nat :=
  (s.keyboard_report.bytes, 8)

/-- The keys currently held: `pressed_keys[0 .. key_count-1]`. -/
def UsbState.held (s : UsbState) : List Nat :=
  s.pressed_keys.toList.take s.key_count

/-- Well-formed key arrays: at most six keys are held, the held codes are non-zero and pairwise
distinct, and the slots of `pressed_keys` from index `key_count` on are zero. -/
def UsbState.WellFormed (s : UsbState) : Prop :=
  s.key_count ≤ 6 ∧ 0 ∉ s.held ∧ s.held.Nodup ∧
    ∀ x ∈ s.pressed_keys.toList.drop s.key_count, x = 0

instance (s : UsbState) : Decidable s.WellFormed := by
  unfold UsbState.WellFormed
  infer_instance

/-- The invariant of the driver state: well-formed key arrays, the report's key codes mirror
`pressed_keys`, and the reserved byte is zero. -/
def UsbState.Inv (s : UsbState) : Prop :=
  s.WellFormed ∧ s.keyboard_report.keycode = s.pressed_keys ∧ s.keyboard_report.reserved = 0

/-! ## Sequences of calls of the public operations of `usb_keyboard.c` -/

/-- One call of a public function of `usb_keyboard.h`, with its arguments. -/
inductive UsbOp where
  | init
  | pressKey (key_code : Nat)
  | releaseKey (key_code : Nat)
  | releaseAll
  | setModifier (modifier : Nat)
  | clearModifier
  | handleMatrixKey (matrix_key pressed : Nat)
  | sendReport
  | getReport
deriving DecidableEq, Repr

/-- What an observer of the driver sees: a call of `USB_Keyboard_Init`, or a report handed to
the transport `USBD_HID_SendReport`. -/
inductive UsbEvent where
  | reset
  | sent (report : USB_KeyboardReport_t)
deriving DecidableEq, Repr

/-- Run one call: the new state and the events of the call. -/
def UsbOp.step (s : UsbState) : UsbOp → Option (UsbState × List UsbEvent)
  | .init => some (USB_Keyboard_Init, [UsbEvent.reset])
  | .pressKey k => (USB_Keyboard_PressKey s k).map (fun t => (t, []))
  | .releaseKey k => (USB_Keyboard_ReleaseKey s k).map (fun t => (t, []))
  | .releaseAll => some (USB_Keyboard_ReleaseAll s, [])
  | .setModifier m => some (USB_Keyboard_SetModifier s m, [])
  | .clearModifier => some (USB_Keyboard_ClearModifier s, [])
  | .handleMatrixKey m p =>
    (USB_Keyboard_HandleMatrixKey s m p).map (fun r => (r.1, r.2.map UsbEvent.sent))
  | .sendReport =>
    some ((USB_Keyboard_SendReport s).1, (USB_Keyboard_SendReport s).2.map UsbEvent.sent)
  | .getReport => some (s, [])

/-- Run a sequence of calls from state `s`: the final state and all events, oldest first. -/
def runOps (s : UsbState) : List UsbOp → Option (UsbState × List UsbEvent)
  | [] => some (s, [])
  | op :: ops =>
    match op.step s with
    | none => none
    | some (s1, ev) =>
      match runOps s1 ops with
      | none => none
      | some (s2, evs) => some (s2, ev ++ evs)

/-- The reports handed to the transport, oldest first. -/
def transmitted : List UsbEvent → List USB_KeyboardReport_t
  | [] => []
  | UsbEvent.reset :: evs => transmitted evs
  | UsbEvent.sent r :: evs => r :: transmitted evs

/-- No two neighbours in the list are equal. -/
def noRepeat : List USB_KeyboardReport_t → Prop
  | a :: b :: rest => a ≠ b ∧ noRepeat (b :: rest)
  | _ => True

/-- No report is handed to the transport twice in a row without a call of
`USB_Keyboard_Init` in between. -/
def noRepeatBetweenResets : List UsbEvent → Prop
  | UsbEvent.sent a :: UsbEvent.sent b :: rest =>
    a ≠ b ∧ noRepeatBetweenResets (UsbEvent.sent b :: rest)
  | _ :: rest => noRepeatBetweenResets rest
  | [] => True

/-! ## State and scan of `matrix_keyboard.c` -/

/-- The constant `KEYBOARD_ROWS` of `matrix_keyboard.h`. -/
def KEYBOARD_ROWS : Nat := 3

/-- The constant `KEYBOARD_COLS` of `matrix_keyboard.h`. -/
def KEYBOARD_COLS : Nat := 3

/-- The constant `DEBOUNCE_TIME` of `matrix_keyboard.h`, in ticks (milliseconds). -/
def DEBOUNCE_TIME : Nat := 20

/-- A C array `[KEYBOARD_ROWS][KEYBOARD_COLS]`. -/
abbrev Grid := Fin 3 → Fin 3 → Nat

/-- The assignment `g[row][col] = v`. -/
def Grid.set (g : Grid) (row col : Fin 3) (v : Nat) : Grid :=
  fun r c => if r = row ∧ c = col then v else g r c

/-- The file-scope variables of `matrix_keyboard.c`. -/
structure MatrixState where
  key_state : Grid
  key_state_last : Grid
  debounce_timer : Grid

/-- The table `key_map`. -/
def key_map : Grid := ![![0, 1, 2], ![3, 4, 5], ![6, 7, 8]]

/-- A call of `Matrix_Key_Callback(key_code, pressed)`. -/
structure KeyEvent where
  key_code : Nat
  pressed : Nat
deriving DecidableEq, Repr

/-- The state set up by `Matrix_Keyboard_Init` (and by the static initialisers). -/
def Matrix_Keyboard_Init : MatrixState :=
  { key_state := fun _ _ => 0
    key_state_last := fun _ _ => 0
    debounce_timer := fun _ _ => 0 }

/-- The body of the column loop of `Matrix_Keyboard_Scan` for cell `(row, col)`.
`pin_reset` is the test `pin_state == GPIO_PIN_RESET` on the sampled column pin,
`current_time` the value of `HAL_GetTick()` read at the start of the scan; the second component
collects the calls of `Matrix_Key_Callback`.  The `uint32_t` subtraction wraps modulo `2^32`. -/
def scanCell (current_time : Nat) (pin_reset : Bool) (row col : Fin 3)
    (acc : MatrixState × List KeyEvent) : MatrixState × List KeyEvent :=
  let s := acc.1
  let current_state : Nat := if pin_reset then 1 else 0
  if current_state ≠ s.key_state row col then
    let s1 : MatrixState :=
      if s.debounce_timer row col = 0 then
        { s with debounce_timer := s.debounce_timer.set row col current_time }
      else s
    if (current_time + 4294967296 - s1.debounce_timer row col) % 4294967296 ≥ DEBOUNCE_TIME then
      let s2 : MatrixState :=
        { s1 with key_state_last := s1.key_state_last.set row col (s1.key_state row col) }
      let s3 : MatrixState := { s2 with key_state := s2.key_state.set row col current_state }
      let s4 : MatrixState := { s3 with debounce_timer := s3.debounce_timer.set row col 0 }
      if s4.key_state row col ≠ s4.key_state_last row col then
        (s4, acc.2 ++ [⟨key_map row col, s4.key_state row col⟩])
      else (s4, acc.2)
    else (s1, acc.2)
  else ({ s with debounce_timer := s.debounce_timer.set row col 0 }, acc.2)

/-- The function `Matrix_Keyboard_Scan`: rows 0..2 in order, in each row columns 0..2 in order.
`pin_reset row col` is the sample of column `col` taken while row `row` is driven low. -/
def Matrix_Keyboard_Scan (s : MatrixState) (current_time : Nat)
    (pin_reset : Fin 3 → Fin 3 → Bool) : MatrixState × List KeyEvent :=
  ([0, 1, 2] : List (Fin 3)).foldl
    (fun acc row =>
      ([0, 1, 2] : List (Fin 3)).foldl
        (fun acc col => scanCell current_time (pin_reset row col) row col acc) acc)
    (s, [])

/-- The function `Matrix_Get_Key_Status`. -/
def Matrix_Get_Key_Status (s : MatrixState) (row col : Nat) : Nat :=
  if h : row < KEYBOARD_ROWS ∧ col < KEYBOARD_COLS then s.key_state ⟨row, h.1⟩ ⟨col, h.2⟩
  else 0

/-- The inputs of one call of `Matrix_Keyboard_Scan`: the tick and the nine pin samples. -/
structure ScanInput where
  tick : Nat
  pin_reset : Fin 3 → Fin 3 → Bool

/-- The raw state (`current_state`) that a scan computes for a cell from its pin sample. -/
def ScanInput.raw (x : ScanInput) (row col : Fin 3) : Nat :=
  if x.pin_reset row col then 1 else 0

/-- One scan with the given inputs. -/
def scanWith (s : MatrixState) (x : ScanInput) : MatrixState × List KeyEvent :=
  Matrix_Keyboard_Scan s x.tick x.pin_reset

/-- The state after a sequence of scans. -/
def stateAfter (s : MatrixState) : List ScanInput → MatrixState
  | [] => s
  | x :: xs => stateAfter (scanWith s x).1 xs

/-- The callback invocations of a sequence of scans, oldest first. -/
def eventsOf (s : MatrixState) : List ScanInput → List KeyEvent
  | [] => []
  | x :: xs => (scanWith s x).2 ++ eventsOf (scanWith s x).1 xs

/-- The variables of one cell of the matrix. -/
structure Cell where
  key_state : Nat
  key_state_last : Nat
  debounce_timer : Nat
deriving DecidableEq, Repr

/-- The variables of cell `(row, col)`. -/
def MatrixState.cell (s : MatrixState) (row col : Fin 3) : Cell :=
  ⟨s.key_state row col, s.key_state_last row col, s.debounce_timer row col⟩

/-- The loop body of `Matrix_Keyboard_Scan` (`scanCell`) read on the variables of the visited
cell alone: the new values, and the argument `pressed` of `Matrix_Key_Callback` when it is
called. -/
def cellStep (current_time current_state : Nat) (c : Cell) : Cell × Option Nat :=
  if current_state ≠ c.key_state then
    let timer := if c.debounce_timer = 0 then current_time else c.debounce_timer
    if (current_time + 4294967296 - timer) % 4294967296 ≥ DEBOUNCE_TIME then
      (⟨current_state, c.key_state, 0⟩,
        if current_state ≠ c.key_state then some current_state else none)
    else (⟨c.key_state, c.key_state_last, timer⟩, none)
  else (⟨c.key_state, c.key_state_last, 0⟩, none)

/-- The callback invocation that goes with the result of `cellStep` for cell `(row, col)`. -/
def cellEvents (row col : Fin 3) : Option Nat → List KeyEvent
  | none => []
  | some pressed => [⟨key_map row col, pressed⟩]

/-- The callback invocations that carry the key code of cell `(row, col)`. -/
def eventsFor (row col : Fin 3) (evs : List KeyEvent) : List KeyEvent :=
  evs.filter (fun e => e.key_code = key_map row col)

/-- The nine cells in the order in which `Matrix_Keyboard_Scan` visits them. -/
def scanOrder : List (Fin 3 × Fin 3) :=
  [(0, 0), (0, 1), (0, 2), (1, 0), (1, 1), (1, 2), (2, 0), (2, 1), (2, 2)]

/-- The loop body run over a list of cells. -/
def scanCells (current_time : Nat) (pin_reset : Fin 3 → Fin 3 → Bool)
    (cells : List (Fin 3 × Fin 3)) (acc : MatrixState × List KeyEvent) :
    MatrixState × List KeyEvent :=
  cells.foldl (fun acc rc => scanCell current_time (pin_reset rc.1 rc.2) rc.1 rc.2 acc) acc

/-! ## Runs of disagreeing samples in a sequence of scans -/

/-- The tick of scan number `m` of a sequence, counting from 0 (0 past the end). -/
def tickAt (ins : List ScanInput) (m : Nat) : Nat :=
  match ins[m]? with
  | some x => x.tick
  | none => 0

/-- Scan number `m` of the sequence exists and samples, for cell `(row, col)`, a raw state
different from the value `key_state[row][col]` has when that scan starts. -/
def disagrees (s : MatrixState) (ins : List ScanInput) (row col : Fin 3) (m : Nat) : Prop :=
  match ins[m]? with
  | some x => x.raw row col ≠ (stateAfter s (ins.take m)).key_state row col
  | none => False

instance (s : MatrixState) (ins : List ScanInput) (row col : Fin 3) (m : Nat) :
    Decidable (disagrees s ins row col m) := by
  unfold disagrees
  cases ins[m]? <;> infer_instance

/-- Scans `a .. b` form a maximal run of consecutive scans that disagree with `key_state` on
cell `(row, col)`: all of them disagree, and neither the scan before `a` nor the scan after `b`
does. -/
def maximalRun (s : MatrixState) (ins : List ScanInput) (row col : Fin 3) (a b : Nat) : Prop :=
  a ≤ b ∧ (∀ m, a ≤ m → m ≤ b → disagrees s ins row col m) ∧
    (a = 0 ∨ ¬ disagrees s ins row col (a - 1)) ∧ ¬ disagrees s ins row col (b + 1)

instance (s : MatrixState) (ins : List ScanInput) (row col : Fin 3) (a b : Nat) :
    Decidable (maximalRun s ins row col a b) := by
  unfold maximalRun
  infer_instance

/-- The ticks of the sequence never decrease. -/
def nonDecreasingTicks (ins : List ScanInput) : Prop :=
  ∀ b, b < ins.length → ∀ a, a < b + 1 → tickAt ins a ≤ tickAt ins b

instance (ins : List ScanInput) : Decidable (nonDecreasingTicks ins) := by
  unfold nonDecreasingTicks
  infer_instance

/-- Every maximal run of disagreeing scans on cell `(row, col)` spans fewer than
`DEBOUNCE_TIME` ticks from its first to its last scan. -/
def shortRuns (s : MatrixState) (ins : List ScanInput) (row col : Fin 3) : Prop :=
  ∀ b, b < ins.length → ∀ a, a < b + 1 →
    maximalRun s ins row col a b → tickAt ins b < tickAt ins a + DEBOUNCE_TIME

instance (s : MatrixState) (ins : List ScanInput) (row col : Fin 3) :
    Decidable (shortRuns s ins row col) := by
  unfold shortRuns
  infer_instance

/-! ## Concrete inputs used in the worked examples -/

/-- The pin samples of a scan during which exactly the key of cell `(row, col)` is down. -/
def onlyKeyDown (row col : Fin 3) : Fin 3 → Fin 3 → Bool :=
  fun r c => decide (r = row ∧ c = col)

/-- The pin samples of a scan during which no key is down. -/
def noKeyDown : Fin 3 → Fin 3 → Bool := fun _ _ => false

/-- A driver state in which the codes 4 and 5 are held. -/
def twoKeysHeld : UsbState :=
  { keyboard_report := ⟨0, 0, ⟨4, 5, 0, 0, 0, 0⟩⟩
    keyboard_report_last := ⟨0, 0, ⟨4, 5, 0, 0, 0, 0⟩⟩
    pressed_keys := ⟨4, 5, 0, 0, 0, 0⟩
    key_count := 2 }

/-- A driver state in which the codes 4, 5, 6 and 7 are held, with the left-shift modifier. -/
def fourKeysHeld : UsbState :=
  { keyboard_report := ⟨2, 0, ⟨4, 5, 6, 7, 0, 0⟩⟩
    keyboard_report_last := ⟨0, 0, ⟨4, 5, 6, 0, 0, 0⟩⟩
    pressed_keys := ⟨4, 5, 6, 7, 0, 0⟩
    key_count := 4 }

/-- Three scans: the key of cell `(0, 0)` is seen down at ticks 5 and 15 and up again at 30. -/
def bounceScans : List ScanInput :=
  [⟨5, onlyKeyDown 0 0⟩, ⟨15, onlyKeyDown 0 0⟩, ⟨30, noKeyDown⟩]

/-! ## The debounce rule as the specification words it -/

/-- The cell of the specification: the last confirmed state `stable` and the optional
`debounce_deadline`. -/
structure SpecCell where
  stable : Nat
  debounce_deadline : Option Nat
deriving DecidableEq, Repr

/-- The four-case debounce rule of the specification, for a cell, a raw sample and the tick
`now`: the new cell and the `pressed` value of the emitted key event, if one is emitted.
`raw == stable` clears the deadline; `raw != stable` without a deadline sets it to
`now + DEBOUNCE_TIME`; `raw != stable` with a deadline that `now` has reached commits;
`raw != stable` with a deadline not yet reached changes nothing. -/
def specDebounceRule (now raw : Nat) (c : SpecCell) : SpecCell × Option Nat :=
  if raw = c.stable then (⟨c.stable, none⟩, none)
  else
    match c.debounce_deadline with
    | none => (⟨c.stable, some (now + DEBOUNCE_TIME)⟩, none)
    | some deadline => if now ≥ deadline then (⟨raw, none⟩, some raw) else (c, none)

/-- The abstraction from the variables of a cell to the cell of the specification:
`stable = key_state`, no deadline when `debounce_timer == 0`, and the deadline
`debounce_timer + DEBOUNCE_TIME` otherwise. -/
def Cell.abstraction (c : Cell) : SpecCell :=
  ⟨c.key_state, if c.debounce_timer = 0 then none else some (c.debounce_timer + DEBOUNCE_TIME)⟩

/-- The state after `Matrix_Keyboard_Init` with the debounce timer of cell `(0, 0)` holding
`timer` (a disagreement on that cell was first seen at tick `timer`). -/
def timerArmedAt (timer : Nat) : MatrixState :=
  { key_state := fun _ _ => 0
    key_state_last := fun _ _ => 0
    debounce_timer := fun r c => if r = 0 ∧ c = 0 then timer else 0 }

/-! ## Alternation of the callback invocations of a cell -/

/-- The `pressed` values in the list alternate between 0 and 1, the first one being `first`. -/
def alternatesFrom : Nat → List Nat → Prop
  | _, [] => True
  | first, p :: ps => p = first ∧ alternatesFrom (1 - first) ps

instance alternatesFrom.decidable : (first : Nat) → (ps : List Nat) →
    Decidable (alternatesFrom first ps)
  | _, [] => isTrue trivial
  | first, p :: ps =>
    have := alternatesFrom.decidable (1 - first) ps
    inferInstanceAs (Decidable (p = first ∧ alternatesFrom (1 - first) ps))

/-! ## Facts about `uint8_t[6]` arrays -/

theorem Arr6.get?_eq_getElem? (a : Arr6) (i : Nat) : a.get? i = a.toList[i]? := by
  rcases i with _ | _ | _ | _ | _ | _ | i <;> simp [Arr6.get?, Arr6.toList]

theorem Arr6.length_toList (a : Arr6) : a.toList.length = 6 := rfl

theorem Arr6.get?_isSome (a : Arr6) (i : Nat) (h : i < 6) : ∃ v, a.get? i = some v := by
  interval_cases i <;> simp [Arr6.get?]

theorem Arr6.get?_none (a : Arr6) (i : Nat) (h : 6 ≤ i) : a.get? i = none := by
  rcases i with _ | _ | _ | _ | _ | _ | i <;> first | omega | rfl

theorem Arr6.set?_isSome (a : Arr6) (i v : Nat) (h : i < 6) : ∃ b, a.set? i v = some b := by
  interval_cases i <;> simp [Arr6.set?]

theorem Arr6.get?_set? (a b : Arr6) (i v : Nat) (h : a.set? i v = some b) (j : Nat) :
    b.get? j = if j = i then some v else a.get? j := by
  obtain ⟨a0, a1, a2, a3, a4, a5⟩ := a
  rcases i with _ | _ | _ | _ | _ | _ | i <;> simp [Arr6.set?] at h <;> subst h <;>
    rcases j with _ | _ | _ | _ | _ | _ | j <;> simp [Arr6.get?]

theorem Arr6.ext_get? (a b : Arr6) (h : ∀ i, i < 6 → a.get? i = b.get? i) : a = b := by
  obtain ⟨a0, a1, a2, a3, a4, a5⟩ := a
  obtain ⟨b0, b1, b2, b3, b4, b5⟩ := b
  have h0 := h 0 (by omega)
  have h1 := h 1 (by omega)
  have h2 := h 2 (by omega)
  have h3 := h 3 (by omega)
  have h4 := h 4 (by omega)
  have h5 := h 5 (by omega)
  simp [Arr6.get?] at h0 h1 h2 h3 h4 h5
  simp [*]

theorem Arr6.mem_take_iff (a : Arr6) (n k : Nat) :
    k ∈ a.toList.take n ↔ ∃ j, j < n ∧ a.get? j = some k := by
  rw [List.mem_iff_getElem?]
  constructor
  · rintro ⟨j, hj⟩
    rw [List.getElem?_take] at hj
    by_cases hjn : j < n
    · exact ⟨j, hjn, by rw [Arr6.get?_eq_getElem?]; simpa [hjn] using hj⟩
    · simp [hjn] at hj
  · rintro ⟨j, hjn, hj⟩
    exact ⟨j, by rw [List.getElem?_take]; simpa [hjn, Arr6.get?_eq_getElem?] using hj⟩

/-! ## The search loop -/

theorem findKey_spec (a : Arr6) (k : Nat) : ∀ (n i : Nat), i + n ≤ 6 →
    ((∀ m, i ≤ m → m < i + n → a.get? m ≠ some k) ∧ findKey a k i n = some none) ∨
    (∃ j, i ≤ j ∧ j < i + n ∧ a.get? j = some k ∧
      (∀ m, i ≤ m → m < j → a.get? m ≠ some k) ∧ findKey a k i n = some (some j)) := by
  intro n
  induction n with
  | zero =>
    intro i _
    left
    exact ⟨fun m h1 h2 => by omega, rfl⟩
  | succ n ih =>
    intro i hi
    obtain ⟨v, hv⟩ := a.get?_isSome i (by omega)
    by_cases hvk : v = k
    · right
      refine ⟨i, le_refl _, by omega, by rw [hv, hvk], fun m h1 h2 => by omega, ?_⟩
      simp [findKey, hv, hvk]
    · have hstep : findKey a k i (n + 1) = findKey a k (i + 1) n := by
        simp [findKey, hv, hvk]
      have hne : a.get? i ≠ some k := by rw [hv]; simpa using hvk
      rcases ih (i + 1) (by omega) with ⟨hall, hres⟩ | ⟨j, hij, hjn, hj, hfirst, hres⟩
      · left
        refine ⟨fun m h1 h2 => ?_, by rw [hstep, hres]⟩
        rcases Nat.eq_or_lt_of_le h1 with h | h
        · subst h; exact hne
        · exact hall m h (by omega)
      · right
        refine ⟨j, by omega, by omega, hj, fun m h1 h2 => ?_, by rw [hstep, hres]⟩
        rcases Nat.eq_or_lt_of_le h1 with h | h
        · subst h; exact hne
        · exact hfirst m h h2

theorem findKey_of_mem (s : UsbState) (k : Nat) (h : s.key_count ≤ 6) (hk : k ∈ s.held) :
    ∃ j, j < s.key_count ∧ s.pressed_keys.get? j = some k ∧
      (∀ m, m < j → s.pressed_keys.get? m ≠ some k) ∧
      findKey s.pressed_keys k 0 s.key_count = some (some j) := by
  rcases findKey_spec s.pressed_keys k s.key_count 0 (by omega) with
    ⟨hall, _⟩ | ⟨j, _, hjn, hj, hfirst, hres⟩
  · obtain ⟨j, hjn, hj⟩ := (Arr6.mem_take_iff _ _ _).1 hk
    exact absurd hj (hall j (Nat.zero_le _) (by omega))
  · exact ⟨j, by omega, hj, fun m hm => hfirst m (Nat.zero_le _) hm, hres⟩

theorem findKey_of_not_mem (s : UsbState) (k : Nat) (h : s.key_count ≤ 6) (hk : k ∉ s.held) :
    findKey s.pressed_keys k 0 s.key_count = some none := by
  rcases findKey_spec s.pressed_keys k s.key_count 0 (by omega) with
    ⟨_, hres⟩ | ⟨j, _, hjn, hj, _, _⟩
  · exact hres
  · exact absurd ((Arr6.mem_take_iff _ _ _).2 ⟨j, by omega, hj⟩) hk

/-- The three cases of `USB_Keyboard_PressKey`: nothing to do, key added, no room left. -/
theorem USB_Keyboard_PressKey_spec (s : UsbState) (k : Nat) (h : s.key_count ≤ 6) :
    (k = 0 ∨ k ∈ s.held → USB_Keyboard_PressKey s k = some s) ∧
    (k ≠ 0 → k ∉ s.held → s.key_count < 6 →
      ∃ p c, USB_Keyboard_PressKey s k = some
          { keyboard_report :=
              { modifier := s.keyboard_report.modifier
                reserved := s.keyboard_report.reserved
                keycode := c }
            keyboard_report_last := s.keyboard_report_last
            pressed_keys := p
            key_count := s.key_count + 1 } ∧
        (∀ j, p.get? j = if j = s.key_count then some k else s.pressed_keys.get? j) ∧
        (∀ j, c.get? j = if j = s.key_count then some k else s.keyboard_report.keycode.get? j)) ∧
    (k ≠ 0 → k ∉ s.held → s.key_count = 6 → USB_Keyboard_PressKey s k = some s) := by
  refine ⟨?_, ?_, ?_⟩
  · rintro (h0 | hk)
    · simp [USB_Keyboard_PressKey, h0]
    · obtain ⟨j, _, _, _, hres⟩ := findKey_of_mem s k h hk
      by_cases h0 : k = 0
      · simp [USB_Keyboard_PressKey, h0]
      · simp [USB_Keyboard_PressKey, h0, hres]
  · intro h0 hk hlt
    obtain ⟨p, hp⟩ := s.pressed_keys.set?_isSome s.key_count k hlt
    obtain ⟨c, hc⟩ := s.keyboard_report.keycode.set?_isSome s.key_count k hlt
    refine ⟨p, c, ?_, Arr6.get?_set? _ _ _ _ hp, Arr6.get?_set? _ _ _ _ hc⟩
    have hmod : (s.key_count + 1) % 256 = s.key_count + 1 := by omega
    simp [USB_Keyboard_PressKey, h0, findKey_of_not_mem s k h hk, hlt, hp, hc, hmod]
  · intro h0 hk h6
    have hge : ¬ s.key_count < 6 := by omega
    simp [USB_Keyboard_PressKey, h0, findKey_of_not_mem s k h hk, hge]

/-- C1. `USB_Keyboard_PressKey(k)` on a state with `key_count <= 6`: when `k` is 0 or is one of
the held codes `pressed_keys[0 .. key_count-1]`, the whole state is unchanged; otherwise, when
`key_count < 6`, `k` is written at index `key_count` of `pressed_keys` and of
`keyboard_report.keycode`, every other slot, the modifier, the reserved byte and
`keyboard_report_last` are unchanged and `key_count` grows by exactly one; otherwise
(`key_count == 6`) the whole state is unchanged.  In every case the call returns without an
access outside the arrays. -/
theorem USB_Keyboard_PressKey_contract (s : UsbState) (k : Nat) (h : s.key_count ≤ 6) :
    (k = 0 ∨ k ∈ s.held → USB_Keyboard_PressKey s k = some s) ∧
    (k ≠ 0 → k ∉ s.held → s.key_count < 6 →
      ∃ p c, USB_Keyboard_PressKey s k = some
          { keyboard_report :=
              { modifier := s.keyboard_report.modifier
                reserved := s.keyboard_report.reserved
                keycode := c }
            keyboard_report_last := s.keyboard_report_last
            pressed_keys := p
            key_count := s.key_count + 1 } ∧
        (∀ j, p.get? j = if j = s.key_count then some k else s.pressed_keys.get? j) ∧
        (∀ j, c.get? j = if j = s.key_count then some k else s.keyboard_report.keycode.get? j)) ∧
    (k ≠ 0 → k ∉ s.held → s.key_count = 6 → USB_Keyboard_PressKey s k = some s) :=
  USB_Keyboard_PressKey_spec s k h

/-! ## The shift loop and `USB_Keyboard_ReleaseKey` -/

theorem shiftDown_spec : ∀ (n : Nat) (p c : Arr6) (j : Nat), j + n < 6 →
    ∃ p1 c1, shiftDown p c j n = some (p1, c1) ∧
      (∀ m, p1.get? m = if j ≤ m ∧ m < j + n then p.get? (m + 1) else p.get? m) ∧
      (∀ m, c1.get? m = if j ≤ m ∧ m < j + n then c.get? (m + 1) else c.get? m) := by
  intro n
  induction n with
  | zero =>
    intro p c j _
    refine ⟨p, c, rfl, fun m => ?_, fun m => ?_⟩ <;>
      rw [if_neg (by omega)]
  | succ n ih =>
    intro p c j hj
    obtain ⟨v, hv⟩ := p.get?_isSome (j + 1) (by omega)
    obtain ⟨p0, hp0⟩ := p.set?_isSome j v (by omega)
    obtain ⟨w, hw⟩ := c.get?_isSome (j + 1) (by omega)
    obtain ⟨c0, hc0⟩ := c.set?_isSome j w (by omega)
    obtain ⟨p1, c1, hres, hp1, hc1⟩ := ih p0 c0 (j + 1) (by omega)
    refine ⟨p1, c1, by simp [shiftDown, hv, hp0, hw, hc0, hres], fun m => ?_, fun m => ?_⟩
    · rw [hp1 m, Arr6.get?_set? _ _ _ _ hp0, Arr6.get?_set? _ _ _ _ hp0]
      by_cases h1 : m = j
      · subst h1
        rw [if_neg (by omega), if_pos rfl, if_pos (by omega), hv]
      · by_cases h2 : j + 1 ≤ m ∧ m < j + 1 + n
        · rw [if_pos h2, if_neg (by omega), if_pos (by omega)]
        · rw [if_neg h2, if_neg h1, if_neg (by omega)]
    · rw [hc1 m, Arr6.get?_set? _ _ _ _ hc0, Arr6.get?_set? _ _ _ _ hc0]
      by_cases h1 : m = j
      · subst h1
        rw [if_neg (by omega), if_pos rfl, if_pos (by omega), hw]
      · by_cases h2 : j + 1 ≤ m ∧ m < j + 1 + n
        · rw [if_pos h2, if_neg (by omega), if_pos (by omega)]
        · rw [if_neg h2, if_neg h1, if_neg (by omega)]

/-- The effect of `USB_Keyboard_ReleaseKey` once its search loop has stopped at index `i`. -/
theorem USB_Keyboard_ReleaseKey_found (s : UsbState) (k i : Nat) (h : s.key_count ≤ 6)
    (hk : k ≠ 0) (hi : i < s.key_count)
    (hfind : findKey s.pressed_keys k 0 s.key_count = some (some i)) :
    ∃ p c, USB_Keyboard_ReleaseKey s k = some
        { keyboard_report :=
            { modifier := s.keyboard_report.modifier
              reserved := s.keyboard_report.reserved
              keycode := c }
          keyboard_report_last := s.keyboard_report_last
          pressed_keys := p
          key_count := s.key_count - 1 } ∧
      (∀ m, p.get? m = if m = s.key_count - 1 then some 0
        else if i ≤ m ∧ m < s.key_count - 1 then s.pressed_keys.get? (m + 1)
        else s.pressed_keys.get? m) ∧
      (∀ m, c.get? m = if m = s.key_count - 1 then some 0
        else if i ≤ m ∧ m < s.key_count - 1 then s.keyboard_report.keycode.get? (m + 1)
        else s.keyboard_report.keycode.get? m) := by
  obtain ⟨p0, c0, hres, hp0, hc0⟩ :=
    shiftDown_spec (s.key_count - 1 - i) s.pressed_keys s.keyboard_report.keycode i (by omega)
  obtain ⟨p, hp⟩ := p0.set?_isSome (s.key_count - 1) 0 (by omega)
  obtain ⟨c, hc⟩ := c0.set?_isSome (s.key_count - 1) 0 (by omega)
  have hidx : i + (s.key_count - 1 - i) = s.key_count - 1 := by omega
  have hmod : (s.key_count + 255) % 256 = s.key_count - 1 := by omega
  refine ⟨p, c, by simp [USB_Keyboard_ReleaseKey, hk, hfind, hres, hp, hc, hmod],
    fun m => ?_, fun m => ?_⟩
  · rw [Arr6.get?_set? _ _ _ _ hp, hp0 m, hidx]
  · rw [Arr6.get?_set? _ _ _ _ hc, hc0 m, hidx]

theorem UsbState.WellFormed.distinct {s : UsbState} (hwf : s.WellFormed) (i j : Nat)
    (hij : i < j) (hj : j < s.key_count) : s.pressed_keys.get? i ≠ s.pressed_keys.get? j := by
  obtain ⟨hle, _, hnd, _⟩ := hwf
  have h := List.nodup_iff_getElem?_ne_getElem?.1 hnd i j hij
    (by simp [UsbState.held, Arr6.length_toList]; omega)
  simpa [UsbState.held, List.getElem?_take, hj, Nat.lt_trans hij hj,
    Arr6.get?_eq_getElem?] using h

theorem findKey_of_held_at (s : UsbState) (k i : Nat) (hwf : s.WellFormed)
    (hi : i < s.key_count) (hheld : s.pressed_keys.get? i = some k) :
    findKey s.pressed_keys k 0 s.key_count = some (some i) := by
  have hmem : k ∈ s.held := (Arr6.mem_take_iff _ _ _).2 ⟨i, hi, hheld⟩
  obtain ⟨j, hj, hjk, _, hres⟩ := findKey_of_mem s k hwf.1 hmem
  have hji : j = i := by
    rcases Nat.lt_trichotomy j i with hlt | heq | hgt
    · exact absurd (hjk.trans hheld.symm) (hwf.distinct j i hlt hi)
    · exact heq
    · exact absurd (hheld.trans hjk.symm) (hwf.distinct i j hgt hj)
  rw [hres, hji]

theorem held_getElem? (s : UsbState) (n : Nat) :
    s.held[n]? = if n < s.key_count then s.pressed_keys.get? n else none := by
  simp [UsbState.held, List.getElem?_take, Arr6.get?_eq_getElem?]

/-- C2. `USB_Keyboard_ReleaseKey(k)` on a well-formed state, for a code `k != 0` held at index
`i`: the call returns; afterwards the held sequence is the old one with the element at index `i`
removed, the codes before `i` stay in place, each code formerly at an index `j > i` is at index
`j - 1`, the slot at the old index `key_count - 1` is zero, `key_count` has dropped by exactly
one and the modifier is unchanged; the report's key codes are shifted in the same way.  In
particular, releasing the third of four held keys moves the fourth one into the third slot and
zeroes the fourth slot. -/
theorem USB_Keyboard_ReleaseKey_contract (s : UsbState) (k i : Nat) (hwf : s.WellFormed)
    (hk : k ≠ 0) (hi : i < s.key_count) (hheld : s.pressed_keys.get? i = some k) :
    ∃ t, USB_Keyboard_ReleaseKey s k = some t ∧
      t.held = s.held.eraseIdx i ∧
      (∀ j, j < i → t.pressed_keys.get? j = s.pressed_keys.get? j) ∧
      (∀ j, i < j → j < s.key_count → t.pressed_keys.get? (j - 1) = s.pressed_keys.get? j) ∧
      t.pressed_keys.get? (s.key_count - 1) = some 0 ∧
      t.key_count + 1 = s.key_count ∧
      t.keyboard_report.modifier = s.keyboard_report.modifier ∧
      (s.key_count = 4 → i = 2 →
        t.pressed_keys.get? 2 = s.pressed_keys.get? 3 ∧ t.pressed_keys.get? 3 = some 0) ∧
      (∀ j, i < j → j < s.key_count →
        t.keyboard_report.keycode.get? (j - 1) = s.keyboard_report.keycode.get? j) ∧
      t.keyboard_report.keycode.get? (s.key_count - 1) = some 0 := by
  obtain ⟨p, c, hres, hp, hc⟩ := USB_Keyboard_ReleaseKey_found s k i hwf.1 hk hi
    (findKey_of_held_at s k i hwf hi hheld)
  refine ⟨_, hres, ?_, ?_, ?_, ?_, ?_, rfl, ?_, ?_, ?_⟩
  · apply List.ext_getElem?
    intro n
    rw [held_getElem?, List.getElem?_eraseIdx, held_getElem?, held_getElem?]
    simp only [hp n]
    by_cases h1 : n < s.key_count - 1
    · rw [if_pos h1, if_neg (by omega)]
      by_cases h2 : n < i
      · rw [if_neg (by omega), if_pos h2, if_pos (by omega)]
      · rw [if_pos (by omega), if_neg h2, if_pos (by omega)]
    · rw [if_neg h1]
      by_cases h2 : n < i
      · omega
      · rw [if_neg h2, if_neg (by omega)]
  · intro j hj
    simp only [hp j]
    rw [if_neg (by omega), if_neg (by omega)]
  · intro j h1 h2
    simp only [hp (j - 1)]
    rw [if_neg (by omega), if_pos (by omega)]
    congr 1
    omega
  · simp [hp (s.key_count - 1)]
  · show s.key_count - 1 + 1 = s.key_count
    omega
  · intro h4 h2
    subst h2
    simp only [hp 2, hp 3, h4]
    simp
  · intro j h1 h2
    simp only [hc (j - 1)]
    rw [if_neg (by omega), if_pos (by omega)]
    congr 1
    omega
  · simp [hc (s.key_count - 1)]

/-! ## Invariants of the key arrays -/

theorem UsbState.wellFormed_iff (s : UsbState) :
    s.WellFormed ↔
      s.key_count ≤ 6 ∧
      (∀ i, i < s.key_count → s.pressed_keys.get? i ≠ some 0) ∧
      (∀ i j, i < j → j < s.key_count → s.pressed_keys.get? i ≠ s.pressed_keys.get? j) ∧
      (∀ i, s.key_count ≤ i → i < 6 → s.pressed_keys.get? i = some 0) := by
  unfold UsbState.WellFormed
  constructor
  · rintro ⟨hle, h0, hnd, hpad⟩
    refine ⟨hle, fun i hi h => h0 ((Arr6.mem_take_iff _ _ _).2 ⟨i, hi, h⟩),
      fun i j hij hj => UsbState.WellFormed.distinct ⟨hle, h0, hnd, hpad⟩ i j hij hj,
      fun i h1 h2 => ?_⟩
    obtain ⟨v, hv⟩ := s.pressed_keys.get?_isSome i h2
    have hmem : v ∈ s.pressed_keys.toList.drop s.key_count := by
      rw [List.mem_iff_getElem?]
      refine ⟨i - s.key_count, ?_⟩
      rw [List.getElem?_drop, ← Arr6.get?_eq_getElem?, ← hv]
      congr 1
      omega
    rw [hv, hpad v hmem]
  · rintro ⟨hle, h0, hnd, hpad⟩
    refine ⟨hle, fun h => ?_, ?_, fun x hx => ?_⟩
    · obtain ⟨j, hj, hjk⟩ := (Arr6.mem_take_iff _ _ _).1 h
      exact h0 j hj hjk
    · rw [List.nodup_iff_getElem?_ne_getElem?]
      intro i j hij hj
      have hj2 : j < s.key_count := by
        simp [UsbState.held, Arr6.length_toList] at hj
        omega
      rw [held_getElem?, held_getElem?, if_pos hj2, if_pos (Nat.lt_trans hij hj2)]
      exact hnd i j hij hj2
    · rw [List.mem_iff_getElem?] at hx
      obtain ⟨n, hn⟩ := hx
      rw [List.getElem?_drop, ← Arr6.get?_eq_getElem?] at hn
      by_cases h6 : s.key_count + n < 6
      · have := hpad (s.key_count + n) (by omega) h6
        rw [hn] at this
        exact Option.some.inj this
      · rw [Arr6.get?_none _ _ (by omega)] at hn
        exact absurd hn (by simp)

theorem USB_Keyboard_Init_inv : USB_Keyboard_Init.Inv := by
  refine ⟨by decide, rfl, rfl⟩

theorem USB_Keyboard_PressKey_inv (s : UsbState) (k : Nat) (hs : s.Inv) :
    ∃ t, USB_Keyboard_PressKey s k = some t ∧ t.Inv ∧
      t.keyboard_report_last = s.keyboard_report_last ∧
      t.keyboard_report.modifier = s.keyboard_report.modifier := by
  obtain ⟨hwf, hkc, hres⟩ := hs
  have hwf2 := (UsbState.wellFormed_iff s).1 hwf
  obtain ⟨hle, h0, hnd, hpad⟩ := hwf2
  obtain ⟨hsame, hadd, hfull⟩ := USB_Keyboard_PressKey_spec s k hle
  by_cases hk : k = 0 ∨ k ∈ s.held
  · exact ⟨s, hsame hk, ⟨hwf, hkc, hres⟩, rfl, rfl⟩
  · have hk0 : k ≠ 0 := fun h => hk (Or.inl h)
    have hkn : k ∉ s.held := fun h => hk (Or.inr h)
    rcases Nat.lt_or_ge s.key_count 6 with hlt | hge
    · obtain ⟨p, c, hpress, hp, hc⟩ := hadd hk0 hkn hlt
      refine ⟨_, hpress, ⟨(UsbState.wellFormed_iff _).2 ⟨?_, ?_, ?_, ?_⟩, ?_, hres⟩, rfl, rfl⟩
      · show s.key_count + 1 ≤ 6
        omega
      · intro i hi
        show p.get? i ≠ some 0
        rw [hp i]
        by_cases h : i = s.key_count
        · rw [if_pos h]; simpa using hk0
        · rw [if_neg h]; exact h0 i (by change i < s.key_count + 1 at hi; omega)
      · intro i j hij hj
        change j < s.key_count + 1 at hj
        show p.get? i ≠ p.get? j
        rw [hp i, hp j, if_neg (by omega)]
        by_cases h : j = s.key_count
        · rw [if_pos h]
          intro heq
          exact hkn ((Arr6.mem_take_iff _ _ _).2 ⟨i, by omega, heq⟩)
        · rw [if_neg h]
          exact hnd i j hij (by omega)
      · intro i h1 h2
        change s.key_count + 1 ≤ i at h1
        show p.get? i = some 0
        rw [hp i, if_neg (by omega)]
        exact hpad i (by omega) h2
      · show c = p
        apply Arr6.ext_get?
        intro i _
        rw [hp i, hc i, hkc]
    · exact ⟨s, hfull hk0 hkn (by omega), ⟨hwf, hkc, hres⟩, rfl, rfl⟩

theorem USB_Keyboard_ReleaseKey_inv (s : UsbState) (k : Nat) (hs : s.Inv) :
    ∃ t, USB_Keyboard_ReleaseKey s k = some t ∧ t.Inv ∧
      t.keyboard_report_last = s.keyboard_report_last ∧
      t.keyboard_report.modifier = s.keyboard_report.modifier := by
  obtain ⟨hwf, hkc, hres⟩ := hs
  obtain ⟨hle, h0, hnd, hpad⟩ := (UsbState.wellFormed_iff s).1 hwf
  by_cases hk0 : k = 0
  · exact ⟨s, by simp [USB_Keyboard_ReleaseKey, hk0], ⟨hwf, hkc, hres⟩, rfl, rfl⟩
  by_cases hk : k ∈ s.held
  · obtain ⟨i, hi, _, _, hfind⟩ := findKey_of_mem s k hle hk
    obtain ⟨p, c, hrel, hp, hc⟩ := USB_Keyboard_ReleaseKey_found s k i hle hk0 hi hfind
    refine ⟨_, hrel, ⟨(UsbState.wellFormed_iff _).2 ⟨?_, ?_, ?_, ?_⟩, ?_, hres⟩, rfl, rfl⟩
    · show s.key_count - 1 ≤ 6
      omega
    · intro m hm
      change m < s.key_count - 1 at hm
      show p.get? m ≠ some 0
      rw [hp m, if_neg (by omega)]
      by_cases h : i ≤ m ∧ m < s.key_count - 1
      · rw [if_pos h]; exact h0 (m + 1) (by omega)
      · rw [if_neg h]; exact h0 m (by omega)
    · intro a b hab hb
      change b < s.key_count - 1 at hb
      show p.get? a ≠ p.get? b
      rw [hp a, hp b, if_neg (show ¬ a = s.key_count - 1 by omega),
        if_neg (show ¬ b = s.key_count - 1 by omega)]
      by_cases ha : i ≤ a ∧ a < s.key_count - 1
      · rw [if_pos ha, if_pos (show i ≤ b ∧ b < s.key_count - 1 by omega)]
        exact hnd (a + 1) (b + 1) (by omega) (by omega)
      · rw [if_neg ha]
        by_cases hb2 : i ≤ b ∧ b < s.key_count - 1
        · rw [if_pos hb2]
          exact hnd a (b + 1) (by omega) (by omega)
        · rw [if_neg hb2]
          exact hnd a b hab (by omega)
    · intro m h1 h2
      change s.key_count - 1 ≤ m at h1
      show p.get? m = some 0
      rw [hp m]
      by_cases h : m = s.key_count - 1
      · rw [if_pos h]
      · rw [if_neg h, if_neg (by omega)]
        exact hpad m (by omega) h2
    · show c = p
      apply Arr6.ext_get?
      intro m _
      rw [hp m, hc m, hkc]
  · exact ⟨s, by simp [USB_Keyboard_ReleaseKey, hk0, findKey_of_not_mem s k hle hk],
      ⟨hwf, hkc, hres⟩, rfl, rfl⟩

/-! ## Sequences of calls -/

theorem USB_Keyboard_SendReport_inv (s : UsbState) (hs : s.Inv) :
    (USB_Keyboard_SendReport s).1.Inv := by
  unfold USB_Keyboard_SendReport
  split
  · exact hs
  · exact hs

theorem USB_Keyboard_SendReport_events (s : UsbState) :
    ((USB_Keyboard_SendReport s).2 = [] ∧
        (USB_Keyboard_SendReport s).1.keyboard_report_last = s.keyboard_report_last) ∨
    (∃ r, (USB_Keyboard_SendReport s).2 = [r] ∧ r ≠ s.keyboard_report_last ∧
        (USB_Keyboard_SendReport s).1.keyboard_report_last = r) := by
  unfold USB_Keyboard_SendReport
  split
  · exact Or.inl ⟨rfl, rfl⟩
  · next h => exact Or.inr ⟨s.keyboard_report, rfl, h, rfl⟩

theorem USB_Keyboard_HandleMatrixKey_inv (s : UsbState) (m p : Nat) (hs : s.Inv) :
    ∃ t tx, USB_Keyboard_HandleMatrixKey s m p = some (t, tx) ∧ t.Inv ∧
      ((tx = [] ∧ t.keyboard_report_last = s.keyboard_report_last) ∨
       (∃ r, tx = [r] ∧ r ≠ s.keyboard_report_last ∧ t.keyboard_report_last = r)) := by
  by_cases hm : m ≥ 9
  · exact ⟨s, [], by simp [USB_Keyboard_HandleMatrixKey, hm], hs, Or.inl ⟨rfl, rfl⟩⟩
  · have hlen : m < matrix_to_usb_hid.length := by
      show m < 9
      omega
    have hm2 : ¬ 9 ≤ m := by omega
    have hget : matrix_to_usb_hid[m]? = some matrix_to_usb_hid[m] := List.getElem?_eq_getElem hlen
    have hmid : ∃ s1, (if p ≠ 0 then USB_Keyboard_PressKey s matrix_to_usb_hid[m]
        else USB_Keyboard_ReleaseKey s matrix_to_usb_hid[m]) = some s1 ∧ s1.Inv ∧
        s1.keyboard_report_last = s.keyboard_report_last := by
      by_cases hp : p ≠ 0
      · obtain ⟨t, ht, hinv, hlast, _⟩ := USB_Keyboard_PressKey_inv s matrix_to_usb_hid[m] hs
        exact ⟨t, by rw [if_pos hp, ht], hinv, hlast⟩
      · obtain ⟨t, ht, hinv, hlast, _⟩ := USB_Keyboard_ReleaseKey_inv s matrix_to_usb_hid[m] hs
        exact ⟨t, by rw [if_neg hp, ht], hinv, hlast⟩
    obtain ⟨s1, hs1, hinv1, hlast1⟩ := hmid
    refine ⟨(USB_Keyboard_SendReport s1).1, (USB_Keyboard_SendReport s1).2, ?_,
      USB_Keyboard_SendReport_inv s1 hinv1, ?_⟩
    · unfold USB_Keyboard_HandleMatrixKey
      rw [if_neg hm, hget]
      simp only [hs1]
    · rw [← hlast1]
      exact USB_Keyboard_SendReport_events s1

/-- Every call succeeds on a state satisfying the invariant and re-establishes it; its events are
nothing, one reset, or one report that differs from the report sent last. -/
theorem UsbOp.step_inv (s : UsbState) (op : UsbOp) (hs : s.Inv) :
    ∃ t ev, op.step s = some (t, ev) ∧ t.Inv ∧
      ((ev = [] ∧ t.keyboard_report_last = s.keyboard_report_last) ∨
       ev = [UsbEvent.reset] ∨
       (∃ r, ev = [UsbEvent.sent r] ∧ r ≠ s.keyboard_report_last ∧
          t.keyboard_report_last = r)) := by
  cases op with
  | init => exact ⟨_, _, rfl, USB_Keyboard_Init_inv, Or.inr (Or.inl rfl)⟩
  | pressKey k =>
    obtain ⟨t, ht, hinv, hlast, _⟩ := USB_Keyboard_PressKey_inv s k hs
    exact ⟨t, [], by simp [UsbOp.step, ht], hinv, Or.inl ⟨rfl, hlast⟩⟩
  | releaseKey k =>
    obtain ⟨t, ht, hinv, hlast, _⟩ := USB_Keyboard_ReleaseKey_inv s k hs
    exact ⟨t, [], by simp [UsbOp.step, ht], hinv, Or.inl ⟨rfl, hlast⟩⟩
  | releaseAll =>
    refine ⟨_, _, rfl, ⟨?_, rfl, hs.2.2⟩, Or.inl ⟨rfl, rfl⟩⟩
    simp [UsbState.WellFormed, USB_Keyboard_ReleaseAll, UsbState.held, Arr6.toList, Arr6.zero]
  | setModifier m => exact ⟨_, _, rfl, hs, Or.inl ⟨rfl, rfl⟩⟩
  | clearModifier => exact ⟨_, _, rfl, hs, Or.inl ⟨rfl, rfl⟩⟩
  | handleMatrixKey m p =>
    obtain ⟨t, tx, ht, hinv, hev⟩ := USB_Keyboard_HandleMatrixKey_inv s m p hs
    refine ⟨t, tx.map UsbEvent.sent, by simp [UsbOp.step, ht], hinv, ?_⟩
    rcases hev with ⟨h1, h2⟩ | ⟨r, h1, h2, h3⟩
    · exact Or.inl ⟨by rw [h1]; rfl, h2⟩
    · exact Or.inr (Or.inr ⟨r, by rw [h1]; rfl, h2, h3⟩)
  | sendReport =>
    refine ⟨_, _, rfl, USB_Keyboard_SendReport_inv s hs, ?_⟩
    rcases USB_Keyboard_SendReport_events s with ⟨h1, h2⟩ | ⟨r, h1, h2, h3⟩
    · exact Or.inl ⟨by rw [h1]; rfl, h2⟩
    · exact Or.inr (Or.inr ⟨r, by rw [h1]; rfl, h2, h3⟩)
  | getReport => exact ⟨s, [], rfl, hs, Or.inl ⟨rfl, rfl⟩⟩

theorem noRepeatBetweenResets_tail (a : USB_KeyboardReport_t) (l : List UsbEvent)
    (h : noRepeatBetweenResets (UsbEvent.sent a :: l)) : noRepeatBetweenResets l := by
  cases l with
  | nil => simp [noRepeatBetweenResets]
  | cons e rest =>
    cases e with
    | reset => simpa [noRepeatBetweenResets] using h
    | sent b =>
      simp only [noRepeatBetweenResets] at h
      exact h.2

/-- Runs from a state satisfying the invariant never fail, end in a state satisfying it, and
never repeat the report sent last (the one in `keyboard_report_last` at the start included)
unless `USB_Keyboard_Init` is called in between. -/
theorem runOps_inv (ops : List UsbOp) : ∀ (s : UsbState), s.Inv →
    ∃ t log, runOps s ops = some (t, log) ∧ t.Inv ∧
      noRepeatBetweenResets (UsbEvent.sent s.keyboard_report_last :: log) := by
  induction ops with
  | nil =>
    intro s hs
    exact ⟨s, [], rfl, hs, by simp [noRepeatBetweenResets]⟩
  | cons op ops ih =>
    intro s hs
    obtain ⟨s1, ev, hstep, hinv1, hev⟩ := UsbOp.step_inv s op hs
    obtain ⟨t, log, hrun, hinv, hlog⟩ := ih s1 hinv1
    refine ⟨t, ev ++ log, by simp [runOps, hstep, hrun], hinv, ?_⟩
    rcases hev with ⟨h1, h2⟩ | h1 | ⟨r, h1, h2, h3⟩
    · rw [h1, ← h2]
      exact hlog
    · rw [h1]
      have := noRepeatBetweenResets_tail _ _ hlog
      simpa [noRepeatBetweenResets] using this
    · rw [h1]
      rw [h3] at hlog
      simp only [List.singleton_append, noRepeatBetweenResets]
      exact ⟨fun h => h2 h.symm, hlog⟩

theorem USB_KeyboardReport_t.bytes_inj (a b : USB_KeyboardReport_t) :
    a.bytes = b.bytes ↔ a = b := by
  obtain ⟨am, ar, ⟨a0, a1, a2, a3, a4, a5⟩⟩ := a
  obtain ⟨bm, br, ⟨b0, b1, b2, b3, b4, b5⟩⟩ := b
  simp [USB_KeyboardReport_t.bytes, Arr6.toList]

/-- C3. HeldKeys invariant: every sequence of calls of the public operations, run from the
state set up by `USB_Keyboard_Init`, runs to its end without an access outside an array, and in
the state it reaches `key_count <= 6` and the codes `pressed_keys[0 .. key_count-1]` are all
non-zero and pairwise distinct. -/
theorem heldKeys_invariant (ops : List UsbOp) :
    ∃ t log, runOps USB_Keyboard_Init ops = some (t, log) ∧
      t.key_count ≤ 6 ∧
      (∀ i, i < t.key_count → ∃ v, t.pressed_keys.get? i = some v ∧ v ≠ 0) ∧
      (∀ i j, i < j → j < t.key_count → t.pressed_keys.get? i ≠ t.pressed_keys.get? j) ∧
      0 ∉ t.held ∧ t.held.Nodup := by
  obtain ⟨t, log, hrun, hinv, _⟩ := runOps_inv ops USB_Keyboard_Init USB_Keyboard_Init_inv
  obtain ⟨hle, h0, hnd, _⟩ := (UsbState.wellFormed_iff t).1 hinv.1
  refine ⟨t, log, hrun, hle, fun i hi => ?_, hnd, hinv.1.2.1, hinv.1.2.2.1⟩
  obtain ⟨v, hv⟩ := t.pressed_keys.get?_isSome i (by omega)
  exact ⟨v, hv, fun h => h0 i hi (by rw [hv, h])⟩

/-- C4. Report layout invariant: in every state reached from `USB_Keyboard_Init` by a sequence
of calls of the public operations, `keyboard_report.reserved == 0`, `keyboard_report.keycode[i]
== pressed_keys[i]` for every `i` in 0..5 and `keyboard_report.keycode[i] == 0` for every
`i >= key_count`; the eight bytes returned by `USB_Keyboard_GetReport` are the modifier, a zero
byte, the held codes in the order of `pressed_keys`, and zero padding. -/
theorem report_layout_invariant (ops : List UsbOp) :
    ∃ t log, runOps USB_Keyboard_Init ops = some (t, log) ∧
      t.keyboard_report.reserved = 0 ∧
      (∀ i, i < 6 → t.keyboard_report.keycode.get? i = t.pressed_keys.get? i) ∧
      (∀ i, t.key_count ≤ i → i < 6 → t.keyboard_report.keycode.get? i = some 0) ∧
      USB_Keyboard_GetReport t =
        (t.keyboard_report.modifier :: 0 :: (t.held ++ List.replicate (6 - t.key_count) 0), 8) := by
  obtain ⟨t, log, hrun, ⟨hwf, hkc, hres⟩, _⟩ :=
    runOps_inv ops USB_Keyboard_Init USB_Keyboard_Init_inv
  obtain ⟨hle, _, _, hpad⟩ := (UsbState.wellFormed_iff t).1 hwf
  refine ⟨t, log, hrun, hres, fun i _ => by rw [hkc], fun i h1 h2 => by rw [hkc]; exact hpad i h1 h2,
    ?_⟩
  have hdrop : t.pressed_keys.toList.drop t.key_count = List.replicate (6 - t.key_count) 0 := by
    rw [List.eq_replicate_iff]
    exact ⟨by simp [Arr6.length_toList], hwf.2.2.2⟩
  have hsplit : t.pressed_keys.toList = t.held ++ List.replicate (6 - t.key_count) 0 := by
    rw [← hdrop]
    exact (List.take_append_drop _ _).symm
  simp only [USB_Keyboard_GetReport, USB_KeyboardReport_t.bytes, hres, hkc]
  rw [← hsplit]

/-- C7. Dedup of `USB_Keyboard_SendReport`, from every state: a second call right after a first
one never sends, so the two calls together invoke the transport at most once; a single call
sends (exactly the current report) when `keyboard_report` differs in some byte from
`keyboard_report_last` and sends nothing when they agree byte for byte; after the call
`keyboard_report_last` equals `keyboard_report`, and the report and the key arrays are
untouched. -/
theorem USB_Keyboard_SendReport_dedup (s : UsbState) :
    (USB_Keyboard_SendReport (USB_Keyboard_SendReport s).1).2 = [] ∧
    ((USB_Keyboard_SendReport s).2 ++
      (USB_Keyboard_SendReport (USB_Keyboard_SendReport s).1).2).length ≤ 1 ∧
    (s.keyboard_report.bytes ≠ s.keyboard_report_last.bytes →
      (USB_Keyboard_SendReport s).2 = [s.keyboard_report]) ∧
    (s.keyboard_report.bytes = s.keyboard_report_last.bytes →
      (USB_Keyboard_SendReport s).2 = []) ∧
    (USB_Keyboard_SendReport s).1.keyboard_report_last =
      (USB_Keyboard_SendReport s).1.keyboard_report ∧
    (USB_Keyboard_SendReport s).1.keyboard_report = s.keyboard_report ∧
    (USB_Keyboard_SendReport s).1.pressed_keys = s.pressed_keys ∧
    (USB_Keyboard_SendReport s).1.key_count = s.key_count := by
  rw [USB_KeyboardReport_t.bytes_inj]
  by_cases h : s.keyboard_report = s.keyboard_report_last
  · simp [USB_Keyboard_SendReport, h]
  · simp [USB_Keyboard_SendReport, h]

theorem UsbOp.step_reset (s t : UsbState) (op : UsbOp) (ev : List UsbEvent)
    (h : op.step s = some (t, ev)) (hr : UsbEvent.reset ∈ ev) : op = UsbOp.init := by
  cases op with
  | init => rfl
  | pressKey k =>
    simp only [UsbOp.step, Option.map_eq_some', Prod.mk.injEq] at h
    obtain ⟨_, _, _, rfl⟩ := h
    simp at hr
  | releaseKey k =>
    simp only [UsbOp.step, Option.map_eq_some', Prod.mk.injEq] at h
    obtain ⟨_, _, _, rfl⟩ := h
    simp at hr
  | handleMatrixKey m p =>
    simp only [UsbOp.step, Option.map_eq_some', Prod.mk.injEq] at h
    obtain ⟨_, _, _, rfl⟩ := h
    simp at hr
  | sendReport =>
    simp only [UsbOp.step, Option.some.injEq, Prod.mk.injEq] at h
    obtain ⟨_, rfl⟩ := h
    simp at hr
  | releaseAll =>
    simp only [UsbOp.step, Option.some.injEq, Prod.mk.injEq] at h
    obtain ⟨_, rfl⟩ := h
    simp at hr
  | setModifier m =>
    simp only [UsbOp.step, Option.some.injEq, Prod.mk.injEq] at h
    obtain ⟨_, rfl⟩ := h
    simp at hr
  | clearModifier =>
    simp only [UsbOp.step, Option.some.injEq, Prod.mk.injEq] at h
    obtain ⟨_, rfl⟩ := h
    simp at hr
  | getReport =>
    simp only [UsbOp.step, Option.some.injEq, Prod.mk.injEq] at h
    obtain ⟨_, rfl⟩ := h
    simp at hr

theorem runOps_reset (ops : List UsbOp) : ∀ (s t : UsbState) (log : List UsbEvent),
    runOps s ops = some (t, log) → UsbOp.init ∉ ops → UsbEvent.reset ∉ log := by
  induction ops with
  | nil =>
    intro s t log h _
    simp only [runOps, Option.some.injEq, Prod.mk.injEq] at h
    obtain ⟨_, rfl⟩ := h
    simp
  | cons op ops ih =>
    intro s t log h hinit hmem
    simp only [runOps] at h
    cases hstep : op.step s with
    | none => simp [hstep] at h
    | some r =>
      obtain ⟨s1, ev⟩ := r
      simp only [hstep] at h
      cases hrun : runOps s1 ops with
      | none => simp [hrun] at h
      | some r2 =>
        obtain ⟨s2, evs⟩ := r2
        simp only [hrun, Option.some.injEq, Prod.mk.injEq] at h
        obtain ⟨_, rfl⟩ := h
        rcases List.mem_append.1 hmem with h1 | h2
        · exact hinit (by rw [UsbOp.step_reset s s1 op ev hstep h1]; exact List.mem_cons_self _ _)
        · exact ih s1 s2 evs hrun (fun h => hinit (List.mem_cons_of_mem _ h)) h2

theorem noRepeat_transmitted (log : List UsbEvent) (hr : UsbEvent.reset ∉ log)
    (h : noRepeatBetweenResets log) : noRepeat (transmitted log) := by
  induction log with
  | nil => simp [transmitted, noRepeat]
  | cons e rest ih =>
    cases e with
    | reset => exact absurd (List.mem_cons_self _ _) hr
    | sent a =>
      have hr2 : UsbEvent.reset ∉ rest := fun h => hr (List.mem_cons_of_mem _ h)
      cases rest with
      | nil => simp [transmitted, noRepeat]
      | cons e2 rest2 =>
        cases e2 with
        | reset => exact absurd (List.mem_cons_self _ _) hr2
        | sent b =>
          simp only [noRepeatBetweenResets] at h
          have := ih hr2 h.2
          simp only [transmitted, noRepeat] at this ⊢
          exact ⟨h.1, this⟩

/-- C8, as amended. Every sequence of calls of the public operations
(`USB_Keyboard_Init` included, with arbitrary arguments), run from the initial state, runs to
its end, and no two consecutive invocations of the transport that have no call of
`USB_Keyboard_Init` between them carry the same report; in particular, when
`USB_Keyboard_Init` is not called in the sequence, no two consecutive invocations of the
transport carry the same report. -/
theorem no_repeated_report_between_resets (ops : List UsbOp) :
    ∃ t log, runOps USB_Keyboard_Init ops = some (t, log) ∧ noRepeatBetweenResets log ∧
      (UsbOp.init ∉ ops → noRepeat (transmitted log)) := by
  obtain ⟨t, log, hrun, _, hlog⟩ := runOps_inv ops USB_Keyboard_Init USB_Keyboard_Init_inv
  have hnr := noRepeatBetweenResets_tail _ _ hlog
  exact ⟨t, log, hrun, hnr, fun hinit =>
    noRepeat_transmitted log (runOps_reset ops _ _ _ hrun hinit) hnr⟩

/-- C8, as stated, fails: with a call of `USB_Keyboard_Init` between them, two consecutive
invocations of the transport carry the same eight bytes.  Press 4, send, init, press 4, send:
the report `[0,0,4,0,0,0,0,0]` is handed to the transport twice in a row. -/
theorem repeated_report_across_init :
    ∃ t log, runOps USB_Keyboard_Init
        [UsbOp.pressKey 4, UsbOp.sendReport, UsbOp.init, UsbOp.pressKey 4, UsbOp.sendReport] =
          some (t, log) ∧
      transmitted log = [⟨0, 0, ⟨4, 0, 0, 0, 0, 0⟩⟩, ⟨0, 0, ⟨4, 0, 0, 0, 0, 0⟩⟩] ∧
      ¬ noRepeat (transmitted log) := by
  refine ⟨_, _, rfl, rfl, ?_⟩
  simp [transmitted, noRepeat]

/-- C9. From the state set up by `USB_Keyboard_Init`, for distinct matrix indices `i, j < 9`,
`USB_Keyboard_HandleMatrixKey(i, 1)` followed by `USB_Keyboard_HandleMatrixKey(j, 1)` leaves a
report whose eight bytes, as returned by `USB_Keyboard_GetReport` together with the length 8,
are `[0x00, 0x00, 0x1E + i, 0x1E + j, 0x00, 0x00, 0x00, 0x00]`. -/
theorem USB_Keyboard_HandleMatrixKey_two_keys (i j : Nat) (hi : i < 9) (hj : j < 9)
    (hij : i ≠ j) :
    ∃ s1 tx1 s2 tx2,
      USB_Keyboard_HandleMatrixKey USB_Keyboard_Init i 1 = some (s1, tx1) ∧
      USB_Keyboard_HandleMatrixKey s1 j 1 = some (s2, tx2) ∧
      USB_Keyboard_GetReport s2 = ([0x00, 0x00, 0x1E + i, 0x1E + j, 0x00, 0x00, 0x00, 0x00], 8) := by
  interval_cases i <;> interval_cases j <;> first
    | exact absurd rfl hij
    | exact ⟨_, _, _, _, rfl, rfl, rfl⟩

/-- C10. From the state set up by `USB_Keyboard_Init`, after `USB_Keyboard_PressKey` on six
pairwise distinct non-zero codes `k1 .. k6` in that order, one more `USB_Keyboard_PressKey(k7)`
with any `k7` leaves the state unchanged, and the key code bytes of the report are exactly
`[k1, k2, k3, k4, k5, k6]`. -/
theorem USB_Keyboard_PressKey_seventh_dropped (k1 k2 k3 k4 k5 k6 k7 : Nat)
    (hnz : 0 ∉ [k1, k2, k3, k4, k5, k6]) (hnd : [k1, k2, k3, k4, k5, k6].Nodup) :
    ∃ s6, runOps USB_Keyboard_Init
        [UsbOp.pressKey k1, UsbOp.pressKey k2, UsbOp.pressKey k3, UsbOp.pressKey k4,
         UsbOp.pressKey k5, UsbOp.pressKey k6] = some (s6, []) ∧
      USB_Keyboard_PressKey s6 k7 = some s6 ∧
      s6.keyboard_report.keycode.toList = [k1, k2, k3, k4, k5, k6] ∧
      USB_Keyboard_GetReport s6 = ([0, 0, k1, k2, k3, k4, k5, k6], 8) := by
  have hs6 : runOps USB_Keyboard_Init
        [UsbOp.pressKey k1, UsbOp.pressKey k2, UsbOp.pressKey k3, UsbOp.pressKey k4,
         UsbOp.pressKey k5, UsbOp.pressKey k6] =
      some (⟨⟨0, 0, ⟨k1, k2, k3, k4, k5, k6⟩⟩, USB_KeyboardReport_t.zero,
        ⟨k1, k2, k3, k4, k5, k6⟩, 6⟩, []) := by
    simp only [List.mem_cons, List.nodup_cons, List.mem_singleton, List.not_mem_nil,
      not_or, or_false] at hnz hnd
    obtain ⟨h1, h2, h3, h4, h5, h6⟩ := hnz
    obtain ⟨⟨h12, h13, h14, h15, h16⟩, ⟨h23, h24, h25, h26⟩, ⟨h34, h35, h36⟩, ⟨h45, h46⟩,
      h56, _⟩ := hnd
    simp [runOps, UsbOp.step, USB_Keyboard_PressKey, findKey, Arr6.get?, Arr6.set?,
      USB_Keyboard_Init, USB_KeyboardReport_t.zero, Arr6.zero, Ne.symm h1, Ne.symm h2,
      Ne.symm h3, Ne.symm h4, Ne.symm h5, Ne.symm h6, h12, h13, h14, h15, h16, h23, h24, h25,
      h26, h34, h35, h36, h45, h46, h56]
  refine ⟨_, hs6, ?_, rfl, rfl⟩
  obtain ⟨hsame, _, hfull⟩ := USB_Keyboard_PressKey_spec
    ⟨⟨0, 0, ⟨k1, k2, k3, k4, k5, k6⟩⟩, USB_KeyboardReport_t.zero, ⟨k1, k2, k3, k4, k5, k6⟩, 6⟩
    k7 (Nat.le_refl 6)
  by_cases h : k7 = 0 ∨ k7 ∈ UsbState.held
    ⟨⟨0, 0, ⟨k1, k2, k3, k4, k5, k6⟩⟩, USB_KeyboardReport_t.zero, ⟨k1, k2, k3, k4, k5, k6⟩, 6⟩
  · exact hsame h
  · exact hfull (fun h0 => h (Or.inl h0)) (fun hm => h (Or.inr hm)) rfl

/-! ## One scan, cell by cell -/

theorem key_map_injective (r c row col : Fin 3) (h : key_map r c = key_map row col) :
    r = row ∧ c = col := by
  revert h
  fin_cases r <;> fin_cases c <;> fin_cases row <;> fin_cases col <;> decide

theorem Grid.set_same (g : Grid) (row col : Fin 3) (v : Nat) : (g.set row col v) row col = v := by
  simp [Grid.set]

theorem Grid.set_other (g : Grid) (r c row col : Fin 3) (v : Nat) (h : ¬ (row = r ∧ col = c)) :
    (g.set r c v) row col = g row col := by
  simp [Grid.set, h]

theorem scanCell_same (t : Nat) (p : Bool) (row col : Fin 3)
    (acc : MatrixState × List KeyEvent) :
    (scanCell t p row col acc).1.cell row col =
      (cellStep t (if p then 1 else 0) (acc.1.cell row col)).1 ∧
    (scanCell t p row col acc).2 =
      acc.2 ++ cellEvents row col (cellStep t (if p then 1 else 0) (acc.1.cell row col)).2 := by
  unfold scanCell cellStep MatrixState.cell
  simp only []
  split_ifs <;> simp_all [Grid.set_same, cellEvents]

theorem scanCell_other (t : Nat) (p : Bool) (r c row col : Fin 3)
    (acc : MatrixState × List KeyEvent) (h : ¬ (row = r ∧ col = c)) :
    (scanCell t p r c acc).1.cell row col = acc.1.cell row col ∧
    eventsFor row col (scanCell t p r c acc).2 = eventsFor row col acc.2 := by
  have hk : ¬ key_map r c = key_map row col := fun hk => by
    obtain ⟨h1, h2⟩ := key_map_injective _ _ _ _ hk
    exact h ⟨h1.symm, h2.symm⟩
  unfold scanCell MatrixState.cell eventsFor
  simp only []
  split_ifs <;> simp_all [Grid.set_other, List.filter_append]

theorem Matrix_Keyboard_Scan_eq (s : MatrixState) (t : Nat) (pin : Fin 3 → Fin 3 → Bool) :
    Matrix_Keyboard_Scan s t pin = scanCells t pin scanOrder (s, []) := rfl

theorem eventsFor_cellEvents (row col : Fin 3) (o : Option Nat) :
    eventsFor row col (cellEvents row col o) = cellEvents row col o := by
  cases o <;> simp [eventsFor, cellEvents]

theorem scanCells_cell (t : Nat) (pin : Fin 3 → Fin 3 → Bool) (row col : Fin 3) :
    ∀ (cells : List (Fin 3 × Fin 3)) (acc : MatrixState × List KeyEvent), cells.Nodup →
      (scanCells t pin cells acc).1.cell row col =
        (if (row, col) ∈ cells then
          (cellStep t (if pin row col then 1 else 0) (acc.1.cell row col)).1
         else acc.1.cell row col) ∧
      eventsFor row col (scanCells t pin cells acc).2 =
        eventsFor row col acc.2 ++
          (if (row, col) ∈ cells then
            cellEvents row col (cellStep t (if pin row col then 1 else 0) (acc.1.cell row col)).2
           else []) := by
  intro cells
  induction cells with
  | nil =>
    intro acc _
    simp [scanCells]
  | cons rc rest ih =>
    intro acc hnd
    obtain ⟨hnot, hnd2⟩ := List.nodup_cons.1 hnd
    have hfold : scanCells t pin (rc :: rest) acc =
        scanCells t pin rest (scanCell t (pin rc.1 rc.2) rc.1 rc.2 acc) := rfl
    obtain ⟨ih1, ih2⟩ := ih (scanCell t (pin rc.1 rc.2) rc.1 rc.2 acc) hnd2
    rw [hfold, ih1, ih2]
    by_cases hrc : rc = (row, col)
    · subst hrc
      obtain ⟨h1, h2⟩ := scanCell_same t (pin row col) row col acc
      simp only [hnot, if_false, List.mem_cons, true_or, if_true, List.append_nil]
      refine ⟨h1, ?_⟩
      rw [h2]
      simp only [eventsFor, List.filter_append]
      congr 1
      exact eventsFor_cellEvents row col _
    · have hne : ¬ (row = rc.1 ∧ col = rc.2) := fun h => hrc (by
        obtain ⟨h1, h2⟩ := h
        exact Prod.ext h1.symm h2.symm)
      obtain ⟨h1, h2⟩ := scanCell_other t (pin rc.1 rc.2) rc.1 rc.2 row col acc hne
      have hmem : ((row, col) ∈ rc :: rest) = ((row, col) ∈ rest) := by
        simp [List.mem_cons, Ne.symm hrc]
      simp only [hmem, h1, h2, and_self]

/-- One scan acts on every cell as `cellStep`, and calls the callback for that cell as
`cellStep` says. -/
theorem Matrix_Keyboard_Scan_cell (s : MatrixState) (t : Nat) (pin : Fin 3 → Fin 3 → Bool)
    (row col : Fin 3) :
    (Matrix_Keyboard_Scan s t pin).1.cell row col =
      (cellStep t (if pin row col then 1 else 0) (s.cell row col)).1 ∧
    eventsFor row col (Matrix_Keyboard_Scan s t pin).2 =
      cellEvents row col (cellStep t (if pin row col then 1 else 0) (s.cell row col)).2 := by
  have hmem : (row, col) ∈ scanOrder := by
    fin_cases row <;> fin_cases col <;> decide
  have h := scanCells_cell t pin row col scanOrder (s, []) (by decide)
  rw [← Matrix_Keyboard_Scan_eq] at h
  simpa [hmem, eventsFor] using h

/-! ## Sequences of scans -/

theorem stateAfter_append (l1 : List ScanInput) : ∀ (s : MatrixState) (l2 : List ScanInput),
    stateAfter s (l1 ++ l2) = stateAfter (stateAfter s l1) l2 := by
  induction l1 with
  | nil => intro s l2; rfl
  | cons x xs ih => intro s l2; exact ih (scanWith s x).1 l2

theorem eventsOf_append (l1 : List ScanInput) : ∀ (s : MatrixState) (l2 : List ScanInput),
    eventsOf s (l1 ++ l2) = eventsOf s l1 ++ eventsOf (stateAfter s l1) l2 := by
  induction l1 with
  | nil => intro s l2; rfl
  | cons x xs ih =>
    intro s l2
    show (scanWith s x).2 ++ eventsOf (scanWith s x).1 (xs ++ l2) = _
    rw [ih]
    simp [eventsOf, stateAfter, List.append_assoc]

theorem take_succ_of_getElem? (ins : List ScanInput) (m : Nat) (x : ScanInput)
    (h : ins[m]? = some x) : ins.take (m + 1) = ins.take m ++ [x] := by
  rw [List.take_succ, h]
  rfl

theorem stateAfter_take_succ (s : MatrixState) (ins : List ScanInput) (m : Nat) (x : ScanInput)
    (h : ins[m]? = some x) :
    stateAfter s (ins.take (m + 1)) = (scanWith (stateAfter s (ins.take m)) x).1 := by
  rw [take_succ_of_getElem? ins m x h, stateAfter_append]
  rfl

theorem eventsOf_take_succ (s : MatrixState) (ins : List ScanInput) (m : Nat) (x : ScanInput)
    (h : ins[m]? = some x) :
    eventsOf s (ins.take (m + 1)) =
      eventsOf s (ins.take m) ++ (scanWith (stateAfter s (ins.take m)) x).2 := by
  rw [take_succ_of_getElem? ins m x h, eventsOf_append]
  simp [eventsOf]

theorem scanWith_cell (s : MatrixState) (x : ScanInput) (row col : Fin 3) :
    (scanWith s x).1.cell row col = (cellStep x.tick (x.raw row col) (s.cell row col)).1 ∧
    eventsFor row col (scanWith s x).2 =
      cellEvents row col (cellStep x.tick (x.raw row col) (s.cell row col)).2 :=
  Matrix_Keyboard_Scan_cell s x.tick x.pin_reset row col

theorem disagrees_lt_length (s : MatrixState) (ins : List ScanInput) (row col : Fin 3) (m : Nat)
    (h : disagrees s ins row col m) : m < ins.length := by
  by_contra hlt
  have hnone : ins[m]? = none := List.getElem?_eq_none (by omega)
  simp [disagrees, hnone] at h

theorem disagrees_iff (s : MatrixState) (ins : List ScanInput) (row col : Fin 3) (m : Nat)
    (x : ScanInput) (hx : ins[m]? = some x) :
    disagrees s ins row col m ↔
      x.raw row col ≠ (stateAfter s (ins.take m)).key_state row col := by
  simp [disagrees, hx]

/-- Every run of disagreeing scans lies inside a maximal one. -/
theorem exists_maximalRun (s : MatrixState) (ins : List ScanInput) (row col : Fin 3) (a b : Nat)
    (hab : a ≤ b) (hrun : ∀ m, a ≤ m → m ≤ b → disagrees s ins row col m) :
    ∃ a1 b1, a1 ≤ a ∧ b ≤ b1 ∧ b1 < ins.length ∧ maximalRun s ins row col a1 b1 := by
  have hleft : ∀ a, a ≤ b → (∀ m, a ≤ m → m ≤ b → disagrees s ins row col m) →
      ∃ a1, a1 ≤ a ∧ (∀ m, a1 ≤ m → m ≤ b → disagrees s ins row col m) ∧
        (a1 = 0 ∨ ¬ disagrees s ins row col (a1 - 1)) := by
    intro a
    induction a with
    | zero => intro _ h; exact ⟨0, le_refl _, h, Or.inl rfl⟩
    | succ n ih =>
      intro hn h
      by_cases hd : disagrees s ins row col n
      · obtain ⟨a1, h1, h2, h3⟩ := ih (by omega) (fun m hm1 hm2 => by
          rcases Nat.eq_or_lt_of_le hm1 with heq | hlt
          · rw [← heq]; exact hd
          · exact h m hlt hm2)
        exact ⟨a1, by omega, h2, h3⟩
      · exact ⟨n + 1, le_refl _, h, Or.inr hd⟩
  have hright : ∀ d b, ins.length - b = d → ∀ a, a ≤ b →
      (∀ m, a ≤ m → m ≤ b → disagrees s ins row col m) →
      ∃ b1, b ≤ b1 ∧ (∀ m, a ≤ m → m ≤ b1 → disagrees s ins row col m) ∧
        ¬ disagrees s ins row col (b1 + 1) := by
    intro d
    induction d with
    | zero =>
      intro b hb a hab h
      have := disagrees_lt_length s ins row col b (h b hab (le_refl _))
      omega
    | succ n ih =>
      intro b hb a hab h
      by_cases hd : disagrees s ins row col (b + 1)
      · obtain ⟨b1, h1, h2, h3⟩ := ih (b + 1) (by omega) a (by omega) (fun m hm1 hm2 => by
          rcases Nat.eq_or_lt_of_le hm2 with heq | hlt
          · rw [heq]; exact hd
          · exact h m hm1 (by omega))
        exact ⟨b1, by omega, h2, h3⟩
      · exact ⟨b, le_refl _, h, hd⟩
  obtain ⟨a1, ha1, hrun1, hmax1⟩ := hleft a hab hrun
  obtain ⟨b1, hb1, hrun2, hmax2⟩ := hright (ins.length - b) b rfl a1 (by omega) hrun1
  exact ⟨a1, b1, ha1, hb1, disagrees_lt_length s ins row col b1 (hrun2 b1 (by omega) (le_refl _)),
    by omega, hrun2, hmax1, hmax2⟩

/-- Under the hypotheses of debounce stability, every run of disagreeing scans is short. -/
theorem run_short (s : MatrixState) (ins : List ScanInput) (row col : Fin 3)
    (hmono : nonDecreasingTicks ins) (hshort : shortRuns s ins row col) (a b : Nat)
    (hab : a ≤ b) (hrun : ∀ m, a ≤ m → m ≤ b → disagrees s ins row col m) :
    tickAt ins a ≤ tickAt ins b ∧ tickAt ins b < tickAt ins a + DEBOUNCE_TIME := by
  obtain ⟨a1, b1, ha1, hb1, hlen, hmax⟩ := exists_maximalRun s ins row col a b hab hrun
  have h1 := hshort b1 hlen a1 (by omega) hmax
  have h2 := hmono b1 hlen b (by omega)
  have h3 := hmono a (by omega) a1 (by omega)
  have h4 := hmono b (by omega) a (by omega)
  exact ⟨h4, by omega⟩

theorem cellStep_agree (t raw : Nat) (c : Cell) (h : raw = c.key_state) :
    cellStep t raw c = (⟨c.key_state, c.key_state_last, 0⟩, none) := by
  simp [cellStep, h]

theorem cellStep_wait (t raw : Nat) (c : Cell) (h : raw ≠ c.key_state)
    (hlt : (t + 4294967296 - (if c.debounce_timer = 0 then t else c.debounce_timer))
      % 4294967296 < DEBOUNCE_TIME) :
    cellStep t raw c =
      (⟨c.key_state, c.key_state_last, if c.debounce_timer = 0 then t else c.debounce_timer⟩,
        none) := by
  have hnot : ¬ DEBOUNCE_TIME ≤
      (t + 4294967296 - (if c.debounce_timer = 0 then t else c.debounce_timer)) % 4294967296 :=
    by omega
  simp only [cellStep, ne_eq, h, not_false_eq_true, if_true, ge_iff_le, hnot, if_false]

/-- The invariant behind debounce stability, for the first `m` scans of the sequence. -/
theorem stability_upto (s : MatrixState) (ins : List ScanInput) (row col : Fin 3)
    (hclear : s.debounce_timer row col = 0)
    (hmono : nonDecreasingTicks ins) (hshort : shortRuns s ins row col) :
    ∀ m, m ≤ ins.length →
      (stateAfter s (ins.take m)).key_state row col = s.key_state row col ∧
      ((stateAfter s (ins.take m)).debounce_timer row col = 0 ∨
        ∃ a, a < m ∧ (∀ j, a ≤ j → j < m → disagrees s ins row col j) ∧
          (stateAfter s (ins.take m)).debounce_timer row col = tickAt ins a) ∧
      eventsFor row col (eventsOf s (ins.take m)) = [] := by
  intro m
  induction m with
  | zero =>
    intro _
    exact ⟨rfl, Or.inl hclear, rfl⟩
  | succ m ih =>
    intro hm
    obtain ⟨hks, htimer, hev⟩ := ih (by omega)
    have hget : ins[m]? = some ins[m] := List.getElem?_eq_getElem (by omega)
    have htick : tickAt ins m = ins[m].tick := by simp [tickAt, hget]
    obtain ⟨hcell, hcev⟩ := scanWith_cell (stateAfter s (ins.take m)) ins[m] row col
    rw [stateAfter_take_succ s ins m _ hget, eventsOf_take_succ s ins m _ hget]
    have hevs : ∀ o, cellEvents row col
          (cellStep ins[m].tick (ins[m].raw row col)
            ((stateAfter s (ins.take m)).cell row col)).2 = cellEvents row col o →
        o = none →
        eventsFor row col (eventsOf s (ins.take m) ++
          (scanWith (stateAfter s (ins.take m)) ins[m]).2) = [] := by
      intro o h1 h2
      have : eventsFor row col (eventsOf s (ins.take m) ++
          (scanWith (stateAfter s (ins.take m)) ins[m]).2) =
          eventsFor row col (eventsOf s (ins.take m)) ++
            eventsFor row col (scanWith (stateAfter s (ins.take m)) ins[m]).2 := by
        simp [eventsFor, List.filter_append]
      rw [this, hev, hcev, h1, h2]
      rfl
    by_cases hd : ins[m].raw row col = (stateAfter s (ins.take m)).key_state row col
    · have hstep := cellStep_agree ins[m].tick (ins[m].raw row col)
        ((stateAfter s (ins.take m)).cell row col) hd
      rw [hstep] at hcell
      refine ⟨?_, Or.inl ?_, hevs none (by rw [hstep]) rfl⟩
      · have := congrArg Cell.key_state hcell
        exact this.trans hks
      · exact congrArg Cell.debounce_timer hcell
    · have hdis : disagrees s ins row col m := (disagrees_iff s ins row col m _ hget).2 hd
      have hwait : (ins[m].tick + 4294967296 -
          (if ((stateAfter s (ins.take m)).cell row col).debounce_timer = 0 then ins[m].tick
            else ((stateAfter s (ins.take m)).cell row col).debounce_timer)) % 4294967296
          < DEBOUNCE_TIME := by
        show (ins[m].tick + 4294967296 -
          (if (stateAfter s (ins.take m)).debounce_timer row col = 0 then ins[m].tick
            else (stateAfter s (ins.take m)).debounce_timer row col)) % 4294967296 < 20
        rcases htimer with h0 | ⟨a, ha, hrun, hta⟩
        · rw [if_pos h0]
          omega
        · by_cases h0 : (stateAfter s (ins.take m)).debounce_timer row col = 0
          · rw [if_pos h0]
            omega
          · rw [if_neg h0, hta]
            obtain ⟨h1, h2⟩ := run_short s ins row col hmono hshort a m (by omega)
              (fun j hj1 hj2 => by
                rcases Nat.eq_or_lt_of_le hj2 with heq | hlt
                · rw [heq]; exact hdis
                · exact hrun j hj1 hlt)
            rw [htick] at h1 h2
            have h20 : DEBOUNCE_TIME = 20 := rfl
            omega
      have hstep := cellStep_wait ins[m].tick (ins[m].raw row col)
        ((stateAfter s (ins.take m)).cell row col) hd hwait
      rw [hstep] at hcell
      refine ⟨?_, Or.inr ?_, hevs none (by rw [hstep]) rfl⟩
      · have := congrArg Cell.key_state hcell
        exact this.trans hks
      · have hnew := congrArg Cell.debounce_timer hcell
        rcases htimer with h0 | ⟨a, ha, hrun, hta⟩
        · refine ⟨m, by omega, fun j hj1 hj2 => ?_, ?_⟩
          · have : j = m := by omega
            rw [this]; exact hdis
          · rw [htick]
            refine hnew.trans ?_
            show (if (stateAfter s (ins.take m)).debounce_timer row col = 0 then ins[m].tick
              else (stateAfter s (ins.take m)).debounce_timer row col) = ins[m].tick
            rw [if_pos h0]
        · by_cases h0 : (stateAfter s (ins.take m)).debounce_timer row col = 0
          · refine ⟨m, by omega, fun j hj1 hj2 => ?_, ?_⟩
            · have : j = m := by omega
              rw [this]; exact hdis
            · rw [htick]
              refine hnew.trans ?_
              show (if (stateAfter s (ins.take m)).debounce_timer row col = 0 then ins[m].tick
                else (stateAfter s (ins.take m)).debounce_timer row col) = ins[m].tick
              rw [if_pos h0]
          · refine ⟨a, by omega, fun j hj1 hj2 => ?_, ?_⟩
            · rcases Nat.eq_or_lt_of_le (Nat.le_of_lt_succ hj2) with heq | hlt
              · rw [heq]; exact hdis
              · exact hrun j hj1 hlt
            · refine hnew.trans ?_
              show (if (stateAfter s (ins.take m)).debounce_timer row col = 0 then ins[m].tick
                else (stateAfter s (ins.take m)).debounce_timer row col) = tickAt ins a
              rw [if_neg h0, hta]

/-- C5. Debounce stability: let a sequence of `Matrix_Keyboard_Scan` calls with non-decreasing
ticks start in a state in which the debounce timer of cell `(row, col)` is clear.  If every
maximal run of consecutive scans whose raw sample for the cell differs from
`key_state[row][col]` spans fewer than `DEBOUNCE_TIME` ticks from its first to its last scan,
then `key_state[row][col]` has its initial value after each of the scans of the sequence and
`Matrix_Key_Callback` is never invoked with the key code of that cell. -/
theorem debounce_stability (s : MatrixState) (ins : List ScanInput) (row col : Fin 3)
    (hclear : s.debounce_timer row col = 0)
    (hmono : nonDecreasingTicks ins) (hshort : shortRuns s ins row col) :
    (∀ m, (stateAfter s (ins.take m)).key_state row col = s.key_state row col) ∧
    (∀ e ∈ eventsOf s ins, e.key_code ≠ key_map row col) := by
  have hpre := stability_upto s ins row col hclear hmono hshort
  constructor
  · intro m
    by_cases hm : m ≤ ins.length
    · exact (hpre m hm).1
    · rw [List.take_of_length_le (by omega), ← List.take_length ins]
      exact (hpre ins.length (le_refl _)).1
  · intro e he hk
    have hnil := (hpre ins.length (le_refl _)).2.2
    rw [List.take_length] at hnil
    have : e ∈ eventsFor row col (eventsOf s ins) := by
      simp [eventsFor, he, hk]
    rw [hnil] at this
    exact absurd this (List.not_mem_nil _)

theorem cellStep_commit (t raw : Nat) (c : Cell) (h : raw ≠ c.key_state)
    (hge : DEBOUNCE_TIME ≤
      (t + 4294967296 - (if c.debounce_timer = 0 then t else c.debounce_timer)) % 4294967296) :
    cellStep t raw c = (⟨raw, c.key_state, 0⟩, some raw) := by
  simp only [cellStep, ne_eq, h, not_false_eq_true, if_true, ge_iff_le, hge]

/-- Where the debounce commit does hold: the first disagreeing scan is at a tick other than 0. -/
theorem debounce_commit_of_nonzero_tick (s : MatrixState) (row col : Fin 3) (t : Nat)
    (x1 x2 : ScanInput) (hclear : s.debounce_timer row col = 0)
    (ht : t < 4294967296) (ht0 : t ≠ 0)
    (h1 : x1.tick = t) (h2 : x2.tick = (t + DEBOUNCE_TIME) % 4294967296)
    (hraw : x1.raw row col ≠ s.key_state row col) (hsame : x2.raw row col = x1.raw row col) :
    eventsFor row col (eventsOf s [x1, x2]) = [⟨key_map row col, x1.raw row col⟩] ∧
    (stateAfter s [x1, x2]).key_state row col = x1.raw row col := by
  have h20 : DEBOUNCE_TIME = 20 := rfl
  obtain ⟨hc1, he1⟩ := scanWith_cell s x1 row col
  have hstep1 : cellStep x1.tick (x1.raw row col) (s.cell row col) =
      (⟨s.key_state row col, s.key_state_last row col, t⟩, none) := by
    have := cellStep_wait x1.tick (x1.raw row col) (s.cell row col) hraw (by
      show (x1.tick + 4294967296 - (if s.debounce_timer row col = 0 then x1.tick
        else s.debounce_timer row col)) % 4294967296 < DEBOUNCE_TIME
      rw [if_pos hclear]
      omega)
    rw [this]
    show (Cell.mk _ _ (if s.debounce_timer row col = 0 then x1.tick
        else s.debounce_timer row col), none) = _
    rw [if_pos hclear, h1]
    rfl
  rw [hstep1] at hc1 he1
  obtain ⟨hc2, he2⟩ := scanWith_cell (scanWith s x1).1 x2 row col
  rw [hc1] at hc2 he2
  have hstep2 : cellStep x2.tick (x2.raw row col)
      (⟨s.key_state row col, s.key_state_last row col, t⟩ : Cell) =
      (⟨x2.raw row col, s.key_state row col, 0⟩, some (x2.raw row col)) := by
    apply cellStep_commit
    · rw [hsame]; exact hraw
    · show DEBOUNCE_TIME ≤ (x2.tick + 4294967296 - (if t = 0 then x2.tick else t)) % 4294967296
      rw [if_neg ht0, h2]
      omega
  rw [hstep2] at hc2 he2
  constructor
  · show eventsFor row col ((scanWith s x1).2 ++ ((scanWith (scanWith s x1).1 x2).2 ++ [])) = _
    have : eventsFor row col ((scanWith s x1).2 ++ ((scanWith (scanWith s x1).1 x2).2 ++ [])) =
        eventsFor row col (scanWith s x1).2 ++
          eventsFor row col (scanWith (scanWith s x1).1 x2).2 := by
      simp [eventsFor, List.filter_append]
    rw [this, he1, he2, hsame]
    rfl
  · show (scanWith (scanWith s x1).1 x2).1.key_state row col = _
    have := congrArg Cell.key_state hc2
    rw [← hsame]
    exact this

/-- C6, evaluated where it fails.  From the state set up by `Matrix_Keyboard_Init` (timer of
cell `(0, 0)` clear), a scan at tick 0 sees the key of cell `(0, 0)` down, which differs from
`key_state[0][0]`, and the next scan, at tick `0 + DEBOUNCE_TIME`, sees it down again: the
callback is not invoked at all and `key_state[0][0]` is still 0.  The timer armed at tick 0
holds the value 0, which the second scan reads as a timer that is not armed. -/
theorem debounce_commit_missed_at_tick_zero :
    Matrix_Keyboard_Init.debounce_timer 0 0 = 0 ∧
    (ScanInput.mk 0 (onlyKeyDown 0 0)).raw 0 0 ≠ Matrix_Keyboard_Init.key_state 0 0 ∧
    eventsOf Matrix_Keyboard_Init [⟨0, onlyKeyDown 0 0⟩, ⟨0 + DEBOUNCE_TIME, onlyKeyDown 0 0⟩] = [] ∧
    (stateAfter Matrix_Keyboard_Init
      [⟨0, onlyKeyDown 0 0⟩, ⟨0 + DEBOUNCE_TIME, onlyKeyDown 0 0⟩]).key_state 0 0 = 0 := by
  decide

/-- The press contract (C1) at the state `twoKeysHeld` and the code 6. -/
theorem USB_Keyboard_PressKey_contract_witness :
    twoKeysHeld.key_count ≤ 6 ∧
    ((6 = 0 ∨ 6 ∈ twoKeysHeld.held → USB_Keyboard_PressKey twoKeysHeld 6 = some twoKeysHeld) ∧
    (6 ≠ 0 → 6 ∉ twoKeysHeld.held → twoKeysHeld.key_count < 6 →
      ∃ p c, USB_Keyboard_PressKey twoKeysHeld 6 = some
          { keyboard_report :=
              { modifier := twoKeysHeld.keyboard_report.modifier
                reserved := twoKeysHeld.keyboard_report.reserved
                keycode := c }
            keyboard_report_last := twoKeysHeld.keyboard_report_last
            pressed_keys := p
            key_count := twoKeysHeld.key_count + 1 } ∧
        (∀ j, p.get? j = if j = twoKeysHeld.key_count then some 6
          else twoKeysHeld.pressed_keys.get? j) ∧
        (∀ j, c.get? j = if j = twoKeysHeld.key_count then some 6
          else twoKeysHeld.keyboard_report.keycode.get? j)) ∧
    (6 ≠ 0 → 6 ∉ twoKeysHeld.held → twoKeysHeld.key_count = 6 →
      USB_Keyboard_PressKey twoKeysHeld 6 = some twoKeysHeld)) :=
  ⟨by decide, USB_Keyboard_PressKey_contract twoKeysHeld 6 (by decide)⟩

/-- Debounce stability (C5) at the scans `bounceScans` and cell `(0, 0)`. -/
theorem debounce_stability_witness :
    Matrix_Keyboard_Init.debounce_timer 0 0 = 0 ∧ nonDecreasingTicks bounceScans ∧
    shortRuns Matrix_Keyboard_Init bounceScans 0 0 ∧
    ((∀ m, (stateAfter Matrix_Keyboard_Init (bounceScans.take m)).key_state 0 0 =
        Matrix_Keyboard_Init.key_state 0 0) ∧
    (∀ e ∈ eventsOf Matrix_Keyboard_Init bounceScans, e.key_code ≠ key_map 0 0)) :=
  ⟨by decide, by decide, by decide,
    debounce_stability Matrix_Keyboard_Init bounceScans 0 0 (by decide) (by decide) (by decide)⟩

/-- The two-key scenario (C9) at the matrix indices 0 and 4. -/
theorem USB_Keyboard_HandleMatrixKey_two_keys_witness :
    0 < 9 ∧ 4 < 9 ∧ 0 ≠ 4 ∧
    ∃ s1 tx1 s2 tx2,
      USB_Keyboard_HandleMatrixKey USB_Keyboard_Init 0 1 = some (s1, tx1) ∧
      USB_Keyboard_HandleMatrixKey s1 4 1 = some (s2, tx2) ∧
      USB_Keyboard_GetReport s2 =
        ([0x00, 0x00, 0x1E + 0, 0x1E + 4, 0x00, 0x00, 0x00, 0x00], 8) :=
  ⟨by decide, by decide, by decide,
    USB_Keyboard_HandleMatrixKey_two_keys 0 4 (by decide) (by decide) (by decide)⟩

/-- The seventh-press scenario (C10) at the codes 4 .. 9 and the seventh code 10. -/
theorem USB_Keyboard_PressKey_seventh_dropped_witness :
    0 ∉ [4, 5, 6, 7, 8, 9] ∧ [4, 5, 6, 7, 8, 9].Nodup ∧
    ∃ s6, runOps USB_Keyboard_Init
        [UsbOp.pressKey 4, UsbOp.pressKey 5, UsbOp.pressKey 6, UsbOp.pressKey 7,
         UsbOp.pressKey 8, UsbOp.pressKey 9] = some (s6, []) ∧
      USB_Keyboard_PressKey s6 10 = some s6 ∧
      s6.keyboard_report.keycode.toList = [4, 5, 6, 7, 8, 9] ∧
      USB_Keyboard_GetReport s6 = ([0, 0, 4, 5, 6, 7, 8, 9], 8) :=
  ⟨by decide, by decide,
    USB_Keyboard_PressKey_seventh_dropped 4 5 6 7 8 9 10 (by decide) (by decide)⟩

/-- The release contract (C2) at the state `fourKeysHeld`: the third of four held keys is
released. -/
theorem USB_Keyboard_ReleaseKey_contract_witness :
    fourKeysHeld.WellFormed ∧ 6 ≠ 0 ∧ 2 < fourKeysHeld.key_count ∧
    fourKeysHeld.pressed_keys.get? 2 = some 6 ∧
    ∃ t, USB_Keyboard_ReleaseKey fourKeysHeld 6 = some t ∧
      t.held = fourKeysHeld.held.eraseIdx 2 ∧
      (∀ j, j < 2 → t.pressed_keys.get? j = fourKeysHeld.pressed_keys.get? j) ∧
      (∀ j, 2 < j → j < fourKeysHeld.key_count →
        t.pressed_keys.get? (j - 1) = fourKeysHeld.pressed_keys.get? j) ∧
      t.pressed_keys.get? (fourKeysHeld.key_count - 1) = some 0 ∧
      t.key_count + 1 = fourKeysHeld.key_count ∧
      t.keyboard_report.modifier = fourKeysHeld.keyboard_report.modifier ∧
      (fourKeysHeld.key_count = 4 → 2 = 2 →
        t.pressed_keys.get? 2 = fourKeysHeld.pressed_keys.get? 3 ∧
        t.pressed_keys.get? 3 = some 0) ∧
      (∀ j, 2 < j → j < fourKeysHeld.key_count →
        t.keyboard_report.keycode.get? (j - 1) = fourKeysHeld.keyboard_report.keycode.get? j) ∧
      t.keyboard_report.keycode.get? (fourKeysHeld.key_count - 1) = some 0 :=
  ⟨by decide, by decide, by decide, by decide,
    USB_Keyboard_ReleaseKey_contract fourKeysHeld 6 2 (by decide) (by decide) (by decide)
      (by decide)⟩

/-! ## Status query, key tables, and the simple operations of the report assembler -/

/-- C11. `Matrix_Get_Key_Status(row, col)`, for every `row` and `col`: inside the grid
(`row < 3` and `col < 3`) it returns `key_state[row][col]`; whenever `row >= 3` or `col >= 3` it
returns 0.  The grid is read only under the guard, at an index inside the 3x3 array, and the
function has no effect on the state: it maps the state and the indices to the returned byte. -/
theorem Matrix_Get_Key_Status_contract (s : MatrixState) (row col : Nat) :
    (∀ (hr : row < 3) (hc : col < 3),
      Matrix_Get_Key_Status s row col = s.key_state ⟨row, hr⟩ ⟨col, hc⟩) ∧
    (3 ≤ row ∨ 3 ≤ col → Matrix_Get_Key_Status s row col = 0) := by
  constructor
  · intro hr hc
    have h : row < KEYBOARD_ROWS ∧ col < KEYBOARD_COLS := ⟨hr, hc⟩
    simp [Matrix_Get_Key_Status, h]
  · intro hout
    have h : ¬ (row < KEYBOARD_ROWS ∧ col < KEYBOARD_COLS) := by
      show ¬ (row < 3 ∧ col < 3)
      omega
    simp [Matrix_Get_Key_Status, h]

/-- C12. Key map: `key_map[row][col] == row * 3 + col` for all `row, col < 3`;
`matrix_to_usb_hid[i] == 0x1E + i` for every `i < 9`; the composed map from cells to usage
codes is injective and never yields the reserved code 0. -/
theorem key_map_tables :
    (∀ row col : Fin 3, key_map row col = row.val * 3 + col.val) ∧
    (∀ i, i < 9 → matrix_to_usb_hid[i]? = some (0x1E + i)) ∧
    (∀ r c r1 c1 : Fin 3,
      matrix_to_usb_hid[key_map r c]? = matrix_to_usb_hid[key_map r1 c1]? → r = r1 ∧ c = c1) ∧
    (∀ r c : Fin 3, ∃ u, matrix_to_usb_hid[key_map r c]? = some u ∧ u ≠ 0) := by
  refine ⟨by decide, by decide, by decide, ?_⟩
  intro r c
  fin_cases r <;> fin_cases c <;> exact ⟨_, rfl, by decide⟩

/-- C14. `USB_Keyboard_SetModifier(m)` makes `keyboard_report.modifier` exactly `m`, whatever it
was before, and `USB_Keyboard_ClearModifier` makes it 0; from every state and for every `m`
both leave `key_count`, `pressed_keys`, `keyboard_report.keycode`, `keyboard_report.reserved`
and `keyboard_report_last` unchanged. -/
theorem USB_Keyboard_modifier_frame (s : UsbState) (m : Nat) :
    (USB_Keyboard_SetModifier s m).keyboard_report.modifier = m ∧
    (USB_Keyboard_ClearModifier s).keyboard_report.modifier = 0 ∧
    ((USB_Keyboard_SetModifier s m).key_count = s.key_count ∧
      (USB_Keyboard_SetModifier s m).pressed_keys = s.pressed_keys ∧
      (USB_Keyboard_SetModifier s m).keyboard_report.keycode = s.keyboard_report.keycode ∧
      (USB_Keyboard_SetModifier s m).keyboard_report.reserved = s.keyboard_report.reserved ∧
      (USB_Keyboard_SetModifier s m).keyboard_report_last = s.keyboard_report_last) ∧
    ((USB_Keyboard_ClearModifier s).key_count = s.key_count ∧
      (USB_Keyboard_ClearModifier s).pressed_keys = s.pressed_keys ∧
      (USB_Keyboard_ClearModifier s).keyboard_report.keycode = s.keyboard_report.keycode ∧
      (USB_Keyboard_ClearModifier s).keyboard_report.reserved = s.keyboard_report.reserved ∧
      (USB_Keyboard_ClearModifier s).keyboard_report_last = s.keyboard_report_last) :=
  ⟨rfl, rfl, ⟨rfl, rfl, rfl, rfl, rfl⟩, ⟨rfl, rfl, rfl, rfl, rfl⟩⟩

/-- C17. `USB_Keyboard_GetReport` is a pure read of the current report: from every state it
returns the length 8 and copies the eight bytes `modifier, reserved, keycode[0..5]` of
`keyboard_report`; the call leaves the driver state as it was and reaches no transport; its
output depends on `keyboard_report` alone, and a second call right after the first one gives
the same bytes and length. -/
theorem USB_Keyboard_GetReport_pure (s : UsbState) :
    USB_Keyboard_GetReport s =
      ([s.keyboard_report.modifier, s.keyboard_report.reserved,
        s.keyboard_report.keycode.e0, s.keyboard_report.keycode.e1,
        s.keyboard_report.keycode.e2, s.keyboard_report.keycode.e3,
        s.keyboard_report.keycode.e4, s.keyboard_report.keycode.e5], 8) ∧
    (USB_Keyboard_GetReport s).1.length = 8 ∧
    UsbOp.getReport.step s = some (s, []) ∧
    runOps s [UsbOp.getReport, UsbOp.getReport] = some (s, []) ∧
    (∀ t, UsbOp.getReport.step s = some (t, []) →
      USB_Keyboard_GetReport t = USB_Keyboard_GetReport s) ∧
    (∀ t : UsbState, t.keyboard_report = s.keyboard_report →
      USB_Keyboard_GetReport t = USB_Keyboard_GetReport s) := by
  refine ⟨rfl, rfl, rfl, rfl, ?_, ?_⟩
  · intro t ht
    simp only [UsbOp.step, Option.some.injEq, Prod.mk.injEq, and_true] at ht
    rw [← ht]
  · intro t ht
    simp [USB_Keyboard_GetReport, ht]

/-! ## Frame and idempotence facts for press and release -/

/-- Whenever `USB_Keyboard_PressKey` returns, `keyboard_report_last`, the modifier and the
reserved byte are as before. -/
theorem USB_Keyboard_PressKey_frame (s t : UsbState) (k : Nat)
    (h : USB_Keyboard_PressKey s k = some t) :
    t.keyboard_report_last = s.keyboard_report_last ∧
    t.keyboard_report.modifier = s.keyboard_report.modifier ∧
    t.keyboard_report.reserved = s.keyboard_report.reserved := by
  unfold USB_Keyboard_PressKey at h
  split at h
  · cases h; exact ⟨rfl, rfl, rfl⟩
  · split at h
    · cases h
    · cases h; exact ⟨rfl, rfl, rfl⟩
    · split at h
      · split at h
        · cases h; exact ⟨rfl, rfl, rfl⟩
        · cases h
      · cases h; exact ⟨rfl, rfl, rfl⟩

/-- Whenever `USB_Keyboard_ReleaseKey` returns, `keyboard_report_last`, the modifier and the
reserved byte are as before. -/
theorem USB_Keyboard_ReleaseKey_frame (s t : UsbState) (k : Nat)
    (h : USB_Keyboard_ReleaseKey s k = some t) :
    t.keyboard_report_last = s.keyboard_report_last ∧
    t.keyboard_report.modifier = s.keyboard_report.modifier ∧
    t.keyboard_report.reserved = s.keyboard_report.reserved := by
  unfold USB_Keyboard_ReleaseKey at h
  split at h
  · cases h; exact ⟨rfl, rfl, rfl⟩
  · split at h
    · cases h
    · cases h; exact ⟨rfl, rfl, rfl⟩
    · split at h
      · cases h
      · split at h
        · cases h; exact ⟨rfl, rfl, rfl⟩
        · cases h

/-- With `key_count <= 6`, `USB_Keyboard_PressKey` returns. -/
theorem USB_Keyboard_PressKey_total (s : UsbState) (k : Nat) (h : s.key_count ≤ 6) :
    ∃ t, USB_Keyboard_PressKey s k = some t ∧ t.key_count ≤ 6 := by
  obtain ⟨hsame, hadd, hfull⟩ := USB_Keyboard_PressKey_spec s k h
  by_cases hk : k = 0 ∨ k ∈ s.held
  · exact ⟨s, hsame hk, h⟩
  · have hk0 : k ≠ 0 := fun h0 => hk (Or.inl h0)
    have hkn : k ∉ s.held := fun hm => hk (Or.inr hm)
    rcases Nat.lt_or_ge s.key_count 6 with hlt | hge
    · obtain ⟨p, c, hpress, _, _⟩ := hadd hk0 hkn hlt
      exact ⟨_, hpress, by show s.key_count + 1 ≤ 6; omega⟩
    · exact ⟨s, hfull hk0 hkn (by omega), h⟩

/-- With `key_count <= 6`, releasing 0 or a code that is not held changes nothing. -/
theorem USB_Keyboard_ReleaseKey_untracked (s : UsbState) (k : Nat) (h : s.key_count ≤ 6)
    (hk : k = 0 ∨ k ∉ s.held) : USB_Keyboard_ReleaseKey s k = some s := by
  by_cases hk0 : k = 0
  · simp [USB_Keyboard_ReleaseKey, hk0]
  · have hkn : k ∉ s.held := hk.resolve_left hk0
    simp [USB_Keyboard_ReleaseKey, hk0, findKey_of_not_mem s k h hkn]

/-- With `key_count <= 6`, `USB_Keyboard_ReleaseKey` returns. -/
theorem USB_Keyboard_ReleaseKey_total (s : UsbState) (k : Nat) (h : s.key_count ≤ 6) :
    ∃ t, USB_Keyboard_ReleaseKey s k = some t ∧ t.key_count ≤ 6 := by
  by_cases hk : k = 0 ∨ k ∉ s.held
  · exact ⟨s, USB_Keyboard_ReleaseKey_untracked s k h hk, h⟩
  · have hk0 : k ≠ 0 := fun h0 => hk (Or.inl h0)
    have hkm : k ∈ s.held := by
      by_contra hn
      exact hk (Or.inr hn)
    obtain ⟨i, hi, _, _, hfind⟩ := findKey_of_mem s k h hkm
    obtain ⟨p, c, hrel, _, _⟩ := USB_Keyboard_ReleaseKey_found s k i h hk0 hi hfind
    exact ⟨_, hrel, by show s.key_count - 1 ≤ 6; omega⟩

/-- Distinct held codes sit at distinct indices (from `key_count <= 6` and distinctness alone). -/
theorem held_nodup_distinct (s : UsbState) (hle : s.key_count ≤ 6) (hnd : s.held.Nodup)
    (i j : Nat) (hij : i < j) (hj : j < s.key_count) :
    s.pressed_keys.get? i ≠ s.pressed_keys.get? j := by
  have h := List.nodup_iff_getElem?_ne_getElem?.1 hnd i j hij
    (by simp [UsbState.held, Arr6.length_toList]; omega)
  simpa [UsbState.held, List.getElem?_take, hj, Nat.lt_trans hij hj,
    Arr6.get?_eq_getElem?] using h

/-- After the release of a held code the code is no longer held, when the held codes were
distinct. -/
theorem USB_Keyboard_ReleaseKey_removes (s : UsbState) (k : Nat) (hle : s.key_count ≤ 6)
    (hnd : s.held.Nodup) (hk0 : k ≠ 0) (hkm : k ∈ s.held) :
    ∃ t, USB_Keyboard_ReleaseKey s k = some t ∧ t.key_count + 1 = s.key_count ∧ k ∉ t.held := by
  obtain ⟨i, hi, hik, hfirst, hfind⟩ := findKey_of_mem s k hle hkm
  obtain ⟨p, c, hrel, hp, _⟩ := USB_Keyboard_ReleaseKey_found s k i hle hk0 hi hfind
  refine ⟨_, hrel, by show s.key_count - 1 + 1 = s.key_count; omega, ?_⟩
  intro hmem
  obtain ⟨n, hn, hnk⟩ := (Arr6.mem_take_iff _ _ _).1 hmem
  change n < s.key_count - 1 at hn
  change p.get? n = some k at hnk
  rw [hp n, if_neg (show ¬ n = s.key_count - 1 by omega)] at hnk
  by_cases hin : i ≤ n ∧ n < s.key_count - 1
  · rw [if_pos hin] at hnk
    exact held_nodup_distinct s hle hnd i (n + 1) (by omega) (by omega) (hik.trans hnk.symm)
  · rw [if_neg hin] at hnk
    exact hfirst n (by omega) hnk

/-- C15. Press is idempotent: from every state with `key_count <= 6` and for every code `k`,
`USB_Keyboard_PressKey(k)` returns, and a second `USB_Keyboard_PressKey(k)` right after it
returns the very state the first call produced. -/
theorem USB_Keyboard_PressKey_idempotent (s : UsbState) (k : Nat) (h : s.key_count ≤ 6) :
    ∃ t, USB_Keyboard_PressKey s k = some t ∧ USB_Keyboard_PressKey t k = some t := by
  obtain ⟨hsame, hadd, hfull⟩ := USB_Keyboard_PressKey_spec s k h
  by_cases hk : k = 0 ∨ k ∈ s.held
  · exact ⟨s, hsame hk, hsame hk⟩
  · have hk0 : k ≠ 0 := fun h0 => hk (Or.inl h0)
    have hkn : k ∉ s.held := fun hm => hk (Or.inr hm)
    rcases Nat.lt_or_ge s.key_count 6 with hlt | hge
    · obtain ⟨p, c, hpress, hp, _⟩ := hadd hk0 hkn hlt
      refine ⟨_, hpress, ?_⟩
      refine (USB_Keyboard_PressKey_spec _ k (by show s.key_count + 1 ≤ 6; omega)).1 (Or.inr ?_)
      refine (Arr6.mem_take_iff _ _ _).2 ⟨s.key_count, by show s.key_count < s.key_count + 1; omega, ?_⟩
      show p.get? s.key_count = some k
      rw [hp s.key_count, if_pos rfl]
    · exact ⟨s, hfull hk0 hkn (by omega), hfull hk0 hkn (by omega)⟩

/-- C16. Release of an untracked code is a no-op, and release is idempotent: from every state
with `key_count <= 6` and distinct held codes, `USB_Keyboard_ReleaseKey(k)` for a `k` that is 0
or not among `pressed_keys[0 .. key_count-1]` leaves the whole state unchanged; and for every
`k` the call returns and a second `USB_Keyboard_ReleaseKey(k)` right after it returns the very
state the first call produced. -/
theorem USB_Keyboard_ReleaseKey_idempotent (s : UsbState) (k : Nat) (hle : s.key_count ≤ 6)
    (hnd : s.held.Nodup) :
    (k = 0 ∨ k ∉ s.held → USB_Keyboard_ReleaseKey s k = some s) ∧
    ∃ t, USB_Keyboard_ReleaseKey s k = some t ∧ USB_Keyboard_ReleaseKey t k = some t := by
  refine ⟨USB_Keyboard_ReleaseKey_untracked s k hle, ?_⟩
  by_cases hk : k = 0 ∨ k ∉ s.held
  · exact ⟨s, USB_Keyboard_ReleaseKey_untracked s k hle hk,
      USB_Keyboard_ReleaseKey_untracked s k hle hk⟩
  · have hk0 : k ≠ 0 := fun h0 => hk (Or.inl h0)
    have hkm : k ∈ s.held := by
      by_contra hn
      exact hk (Or.inr hn)
    obtain ⟨t, hrel, hcount, hgone⟩ := USB_Keyboard_ReleaseKey_removes s k hle hnd hk0 hkm
    exact ⟨t, hrel, USB_Keyboard_ReleaseKey_untracked t k (by omega) (Or.inr hgone)⟩

theorem matrix_to_usb_hid_getElem? (m : Nat) (hm : m < 9) :
    matrix_to_usb_hid[m]? = some (0x1E + m) := by
  interval_cases m <;> rfl

/-- C13. `USB_Keyboard_ReleaseAll`: from every state the driver reaches (every state produced
from `USB_Keyboard_Init` by a sequence of calls of the public operations), afterwards
`key_count == 0`, all six `pressed_keys` slots and all six `keyboard_report.keycode` bytes are
0 and `keyboard_report.modifier == 0`, so the current report is the all-zero 8-byte report.
The four assignments do the same from any values of the driver's variables whatever, where
they leave `keyboard_report.reserved` and `keyboard_report_last` as they were. -/
theorem USB_Keyboard_ReleaseAll_clears (s : UsbState) (ops : List UsbOp) :
    (∃ t log, runOps USB_Keyboard_Init ops = some (t, log) ∧
      (USB_Keyboard_ReleaseAll t).key_count = 0 ∧
      (USB_Keyboard_ReleaseAll t).pressed_keys.toList = [0, 0, 0, 0, 0, 0] ∧
      (USB_Keyboard_ReleaseAll t).keyboard_report.keycode.toList = [0, 0, 0, 0, 0, 0] ∧
      (USB_Keyboard_ReleaseAll t).keyboard_report.modifier = 0 ∧
      USB_Keyboard_GetReport (USB_Keyboard_ReleaseAll t) = ([0, 0, 0, 0, 0, 0, 0, 0], 8)) ∧
    (USB_Keyboard_ReleaseAll s).key_count = 0 ∧
    (USB_Keyboard_ReleaseAll s).pressed_keys.toList = [0, 0, 0, 0, 0, 0] ∧
    (USB_Keyboard_ReleaseAll s).keyboard_report.keycode.toList = [0, 0, 0, 0, 0, 0] ∧
    (USB_Keyboard_ReleaseAll s).keyboard_report.modifier = 0 ∧
    (USB_Keyboard_ReleaseAll s).keyboard_report.reserved = s.keyboard_report.reserved ∧
    (USB_Keyboard_ReleaseAll s).keyboard_report_last = s.keyboard_report_last ∧
    (s.keyboard_report.reserved = 0 →
      USB_Keyboard_GetReport (USB_Keyboard_ReleaseAll s) = ([0, 0, 0, 0, 0, 0, 0, 0], 8)) := by
  refine ⟨?_, rfl, rfl, rfl, rfl, rfl, rfl, ?_⟩
  · obtain ⟨t, log, hrun, hinv, _⟩ := runOps_inv ops USB_Keyboard_Init USB_Keyboard_Init_inv
    refine ⟨t, log, hrun, rfl, rfl, rfl, rfl, ?_⟩
    show ([0, t.keyboard_report.reserved, 0, 0, 0, 0, 0, 0], 8) = _
    rw [hinv.2.2]
  · intro h
    show ([0, s.keyboard_report.reserved, 0, 0, 0, 0, 0, 0], 8) = _
    rw [h]

/-- C18. `USB_Keyboard_HandleMatrixKey(m, p)` for a matrix index `m < 9`, from every state with
`key_count <= 6` (so from every well-formed state): the call returns; it is
`USB_Keyboard_PressKey(0x1E + m)` when `p != 0` and `USB_Keyboard_ReleaseKey(0x1E + m)` when
`p == 0`, followed by `USB_Keyboard_SendReport`, which leaves the key arrays and the report of
that intermediate state in place; the transport is invoked exactly once, with the resulting
report, when that report differs from the report transmitted last, and not at all otherwise;
on return `keyboard_report_last` equals `keyboard_report`. -/
theorem USB_Keyboard_HandleMatrixKey_dispatch (s : UsbState) (m p : Nat) (hm : m < 9)
    (hle : s.key_count ≤ 6) :
    ∃ s1 t tx,
      (if p ≠ 0 then USB_Keyboard_PressKey s (0x1E + m)
        else USB_Keyboard_ReleaseKey s (0x1E + m)) = some s1 ∧
      USB_Keyboard_HandleMatrixKey s m p = some (t, tx) ∧
      (t, tx) = USB_Keyboard_SendReport s1 ∧
      t.pressed_keys = s1.pressed_keys ∧ t.key_count = s1.key_count ∧
      t.keyboard_report = s1.keyboard_report ∧
      (t.keyboard_report ≠ s.keyboard_report_last → tx = [t.keyboard_report]) ∧
      (t.keyboard_report = s.keyboard_report_last → tx = []) ∧
      t.keyboard_report_last = t.keyboard_report := by
  have hmid : ∃ s1, (if p ≠ 0 then USB_Keyboard_PressKey s (0x1E + m)
      else USB_Keyboard_ReleaseKey s (0x1E + m)) = some s1 ∧
      s1.keyboard_report_last = s.keyboard_report_last := by
    by_cases hp : p ≠ 0
    · obtain ⟨s1, h1, _⟩ := USB_Keyboard_PressKey_total s (0x1E + m) hle
      exact ⟨s1, by rw [if_pos hp, h1], (USB_Keyboard_PressKey_frame s s1 _ h1).1⟩
    · obtain ⟨s1, h1, _⟩ := USB_Keyboard_ReleaseKey_total s (0x1E + m) hle
      exact ⟨s1, by rw [if_neg hp, h1], (USB_Keyboard_ReleaseKey_frame s s1 _ h1).1⟩
  obtain ⟨s1, hs1, hlast⟩ := hmid
  have hcall : USB_Keyboard_HandleMatrixKey s m p = some (USB_Keyboard_SendReport s1) := by
    unfold USB_Keyboard_HandleMatrixKey
    rw [if_neg (show ¬ m ≥ 9 by omega), matrix_to_usb_hid_getElem? m hm]
    simp only [hs1]
  refine ⟨s1, (USB_Keyboard_SendReport s1).1, (USB_Keyboard_SendReport s1).2, hs1, hcall, rfl, ?_⟩
  rw [← hlast]
  by_cases h : s1.keyboard_report = s1.keyboard_report_last
  · simp [USB_Keyboard_SendReport, h]
  · simp [USB_Keyboard_SendReport, h]

/-- C19. Only the event handler transmits.  From every state and for every argument: whenever
`USB_Keyboard_PressKey` or `USB_Keyboard_ReleaseKey` returns, and always for
`USB_Keyboard_ReleaseAll`, `USB_Keyboard_SetModifier`, `USB_Keyboard_ClearModifier` and
`USB_Keyboard_GetReport`, the call has handed nothing to the transport and
`keyboard_report_last` is as before (press and release do return when `key_count <= 6`); and a
call of a public operation that hands a report to the transport is a call of
`USB_Keyboard_HandleMatrixKey` or of `USB_Keyboard_SendReport`. -/
theorem only_event_handler_transmits (s : UsbState) (k m : Nat) :
    (∀ t ev, (UsbOp.pressKey k).step s = some (t, ev) →
      ev = [] ∧ t.keyboard_report_last = s.keyboard_report_last) ∧
    (∀ t ev, (UsbOp.releaseKey k).step s = some (t, ev) →
      ev = [] ∧ t.keyboard_report_last = s.keyboard_report_last) ∧
    (∀ t ev, UsbOp.releaseAll.step s = some (t, ev) →
      ev = [] ∧ t.keyboard_report_last = s.keyboard_report_last) ∧
    (∀ t ev, (UsbOp.setModifier m).step s = some (t, ev) →
      ev = [] ∧ t.keyboard_report_last = s.keyboard_report_last) ∧
    (∀ t ev, UsbOp.clearModifier.step s = some (t, ev) →
      ev = [] ∧ t.keyboard_report_last = s.keyboard_report_last) ∧
    (∀ t ev, UsbOp.getReport.step s = some (t, ev) →
      ev = [] ∧ t.keyboard_report_last = s.keyboard_report_last) ∧
    (s.key_count ≤ 6 →
      (∃ t, USB_Keyboard_PressKey s k = some t) ∧ (∃ t, USB_Keyboard_ReleaseKey s k = some t)) ∧
    (∀ (op : UsbOp) t ev r, op.step s = some (t, ev) → UsbEvent.sent r ∈ ev →
      (∃ mk p, op = UsbOp.handleMatrixKey mk p) ∨ op = UsbOp.sendReport) := by
  refine ⟨?_, ?_, ?_, ?_, ?_, ?_, ?_, ?_⟩
  · intro t ev h
    simp only [UsbOp.step, Option.map_eq_some', Prod.mk.injEq] at h
    obtain ⟨t1, h1, rfl, rfl⟩ := h
    exact ⟨rfl, (USB_Keyboard_PressKey_frame s t1 k h1).1⟩
  · intro t ev h
    simp only [UsbOp.step, Option.map_eq_some', Prod.mk.injEq] at h
    obtain ⟨t1, h1, rfl, rfl⟩ := h
    exact ⟨rfl, (USB_Keyboard_ReleaseKey_frame s t1 k h1).1⟩
  · intro t ev h
    simp only [UsbOp.step, Option.some.injEq, Prod.mk.injEq] at h
    obtain ⟨rfl, rfl⟩ := h
    exact ⟨rfl, rfl⟩
  · intro t ev h
    simp only [UsbOp.step, Option.some.injEq, Prod.mk.injEq] at h
    obtain ⟨rfl, rfl⟩ := h
    exact ⟨rfl, rfl⟩
  · intro t ev h
    simp only [UsbOp.step, Option.some.injEq, Prod.mk.injEq] at h
    obtain ⟨rfl, rfl⟩ := h
    exact ⟨rfl, rfl⟩
  · intro t ev h
    simp only [UsbOp.step, Option.some.injEq, Prod.mk.injEq] at h
    obtain ⟨rfl, rfl⟩ := h
    exact ⟨rfl, rfl⟩
  · intro hle
    obtain ⟨t1, h1, _⟩ := USB_Keyboard_PressKey_total s k hle
    obtain ⟨t2, h2, _⟩ := USB_Keyboard_ReleaseKey_total s k hle
    exact ⟨⟨t1, h1⟩, ⟨t2, h2⟩⟩
  · intro op t ev r h hr
    cases op with
    | handleMatrixKey mk p => exact Or.inl ⟨mk, p, rfl⟩
    | sendReport => exact Or.inr rfl
    | init =>
      simp only [UsbOp.step, Option.some.injEq, Prod.mk.injEq] at h
      obtain ⟨_, rfl⟩ := h
      simp at hr
    | pressKey k1 =>
      simp only [UsbOp.step, Option.map_eq_some', Prod.mk.injEq] at h
      obtain ⟨_, _, _, rfl⟩ := h
      simp at hr
    | releaseKey k1 =>
      simp only [UsbOp.step, Option.map_eq_some', Prod.mk.injEq] at h
      obtain ⟨_, _, _, rfl⟩ := h
      simp at hr
    | releaseAll =>
      simp only [UsbOp.step, Option.some.injEq, Prod.mk.injEq] at h
      obtain ⟨_, rfl⟩ := h
      simp at hr
    | setModifier m1 =>
      simp only [UsbOp.step, Option.some.injEq, Prod.mk.injEq] at h
      obtain ⟨_, rfl⟩ := h
      simp at hr
    | clearModifier =>
      simp only [UsbOp.step, Option.some.injEq, Prod.mk.injEq] at h
      obtain ⟨_, rfl⟩ := h
      simp at hr
    | getReport =>
      simp only [UsbOp.step, Option.some.injEq, Prod.mk.injEq] at h
      obtain ⟨_, rfl⟩ := h
      simp at hr

/-! ## The scan against the debounce rule of the specification -/

/-- The code's step on one cell agrees with the rule of the specification when the tick has not
wrapped since the timer was armed and the timer is not being armed at tick 0. -/
theorem cellStep_refines (now raw : Nat) (c : Cell) (hnow : now < 4294967296)
    (hnowrap : c.debounce_timer ≤ now)
    (harm : raw ≠ c.key_state → c.debounce_timer = 0 → now ≠ 0) :
    ((cellStep now raw c).1.abstraction, (cellStep now raw c).2) =
      specDebounceRule now raw c.abstraction := by
  have h20 : DEBOUNCE_TIME = 20 := rfl
  by_cases hraw : raw = c.key_state
  · rw [cellStep_agree now raw c hraw]
    simp [specDebounceRule, Cell.abstraction, hraw]
  · by_cases h0 : c.debounce_timer = 0
    · have hnz := harm hraw h0
      rw [cellStep_wait now raw c hraw (by rw [if_pos h0]; omega)]
      simp [specDebounceRule, Cell.abstraction, hraw, h0, hnz]
    · by_cases hd : now ≥ c.debounce_timer + DEBOUNCE_TIME
      · rw [cellStep_commit now raw c hraw (by rw [if_neg h0]; omega)]
        simp [specDebounceRule, Cell.abstraction, hraw, h0, hd]
      · rw [cellStep_wait now raw c hraw (by rw [if_neg h0]; omega)]
        simp [specDebounceRule, Cell.abstraction, hraw, h0, hd]

/-- C20, as amended. The per-cell step of `Matrix_Keyboard_Scan` implements the four-case
debounce rule of the specification under the abstraction `stable = key_state[row][col]`,
`debounce_deadline = None` when `debounce_timer[row][col] == 0` and
`Some(debounce_timer[row][col] + 20)` otherwise, for every state, every cell, every raw sample
and every 32-bit tick `now` such that `debounce_timer[row][col] <= now` (the tick has not
wrapped since the timer was armed) and such that `now != 0` when the sample disagrees and no
timer is armed: the cell after the scan is the cell the rule gives, and the callback is invoked
for the cell exactly as the rule emits an event. -/
theorem debounce_rule_refinement (s : MatrixState) (now : Nat) (pin : Fin 3 → Fin 3 → Bool)
    (row col : Fin 3) (hnow : now < 4294967296) (hnowrap : s.debounce_timer row col ≤ now)
    (harm : (if pin row col then 1 else 0) ≠ s.key_state row col →
      s.debounce_timer row col = 0 → now ≠ 0) :
    ((Matrix_Keyboard_Scan s now pin).1.cell row col).abstraction =
      (specDebounceRule now (if pin row col then 1 else 0) (s.cell row col).abstraction).1 ∧
    eventsFor row col (Matrix_Keyboard_Scan s now pin).2 =
      cellEvents row col
        (specDebounceRule now (if pin row col then 1 else 0) (s.cell row col).abstraction).2 := by
  obtain ⟨hcell, hev⟩ := Matrix_Keyboard_Scan_cell s now pin row col
  have href := cellStep_refines now (if pin row col then 1 else 0) (s.cell row col) hnow
    hnowrap harm
  rw [hcell, hev, ← href]
  exact ⟨rfl, rfl⟩

/-- C20, as stated, fails when the tick is below the stored timer value.  Cell `(0, 0)` has
`key_state` 0 and `debounce_timer` 100, the scan runs at tick 50 and samples the key down: the
code computes `50 - 100` modulo `2^32`, which is at least 20, and commits (new `key_state` 1,
timer cleared, one callback), while the rule, with the deadline `100 + 20` not reached, changes
nothing.  The same happens across the wrap of the tick counter: timer armed at `2^32 - 10`,
scan at tick 15. -/
theorem debounce_rule_differs_below_timer :
    ((Matrix_Keyboard_Scan (timerArmedAt 100) 50 (onlyKeyDown 0 0)).1.cell 0 0).abstraction =
      ⟨1, none⟩ ∧
    eventsFor 0 0 (Matrix_Keyboard_Scan (timerArmedAt 100) 50 (onlyKeyDown 0 0)).2 = [⟨0, 1⟩] ∧
    specDebounceRule 50 (if onlyKeyDown 0 0 0 0 then 1 else 0)
      ((timerArmedAt 100).cell 0 0).abstraction = (⟨0, some 120⟩, none) ∧
    ((Matrix_Keyboard_Scan (timerArmedAt 4294967286) 15 (onlyKeyDown 0 0)).1.cell 0 0).abstraction
      = ⟨1, none⟩ ∧
    eventsFor 0 0 (Matrix_Keyboard_Scan (timerArmedAt 4294967286) 15 (onlyKeyDown 0 0)).2 =
      [⟨0, 1⟩] ∧
    specDebounceRule 15 (if onlyKeyDown 0 0 0 0 then 1 else 0)
      ((timerArmedAt 4294967286).cell 0 0).abstraction = (⟨0, some 4294967306⟩, none) := by
  decide

/-- The refinement (C20) at the state after `Matrix_Keyboard_Init` with the timer of cell
`(0, 0)` armed at tick 100, for a scan at tick 120 that samples the key down: the rule commits,
and so does the code. -/
theorem debounce_rule_refinement_witness :
    120 < 4294967296 ∧ (timerArmedAt 100).debounce_timer 0 0 ≤ 120 ∧
    ((if onlyKeyDown 0 0 0 0 then 1 else 0) ≠ (timerArmedAt 100).key_state 0 0 →
      (timerArmedAt 100).debounce_timer 0 0 = 0 → 120 ≠ 0) ∧
    (((Matrix_Keyboard_Scan (timerArmedAt 100) 120 (onlyKeyDown 0 0)).1.cell 0 0).abstraction =
      (specDebounceRule 120 (if onlyKeyDown 0 0 0 0 then 1 else 0)
        ((timerArmedAt 100).cell 0 0).abstraction).1 ∧
    eventsFor 0 0 (Matrix_Keyboard_Scan (timerArmedAt 100) 120 (onlyKeyDown 0 0)).2 =
      cellEvents 0 0
        (specDebounceRule 120 (if onlyKeyDown 0 0 0 0 then 1 else 0)
          ((timerArmedAt 100).cell 0 0).abstraction).2) :=
  ⟨by decide, by decide, by decide,
    debounce_rule_refinement (timerArmedAt 100) 120 (onlyKeyDown 0 0) 0 0 (by decide)
      (by decide) (by decide)⟩

/-- Idempotence of press (C15) at the state `twoKeysHeld` and the new code 6. -/
theorem USB_Keyboard_PressKey_idempotent_witness :
    twoKeysHeld.key_count ≤ 6 ∧
    ∃ t, USB_Keyboard_PressKey twoKeysHeld 6 = some t ∧ USB_Keyboard_PressKey t 6 = some t :=
  ⟨by decide, USB_Keyboard_PressKey_idempotent twoKeysHeld 6 (by decide)⟩

/-- Idempotence of release (C16) at the state `fourKeysHeld` and the held code 6. -/
theorem USB_Keyboard_ReleaseKey_idempotent_witness :
    fourKeysHeld.key_count ≤ 6 ∧ fourKeysHeld.held.Nodup ∧
    ((6 = 0 ∨ 6 ∉ fourKeysHeld.held → USB_Keyboard_ReleaseKey fourKeysHeld 6 = some fourKeysHeld) ∧
    ∃ t, USB_Keyboard_ReleaseKey fourKeysHeld 6 = some t ∧
      USB_Keyboard_ReleaseKey t 6 = some t) :=
  ⟨by decide, by decide,
    USB_Keyboard_ReleaseKey_idempotent fourKeysHeld 6 (by decide) (by decide)⟩

/-- The dispatch of the event handler (C18) at the state `twoKeysHeld`, for the press of matrix
key 4. -/
theorem USB_Keyboard_HandleMatrixKey_dispatch_witness :
    4 < 9 ∧ twoKeysHeld.key_count ≤ 6 ∧
    ∃ s1 t tx,
      (if 1 ≠ 0 then USB_Keyboard_PressKey twoKeysHeld (0x1E + 4)
        else USB_Keyboard_ReleaseKey twoKeysHeld (0x1E + 4)) = some s1 ∧
      USB_Keyboard_HandleMatrixKey twoKeysHeld 4 1 = some (t, tx) ∧
      (t, tx) = USB_Keyboard_SendReport s1 ∧
      t.pressed_keys = s1.pressed_keys ∧ t.key_count = s1.key_count ∧
      t.keyboard_report = s1.keyboard_report ∧
      (t.keyboard_report ≠ twoKeysHeld.keyboard_report_last → tx = [t.keyboard_report]) ∧
      (t.keyboard_report = twoKeysHeld.keyboard_report_last → tx = []) ∧
      t.keyboard_report_last = t.keyboard_report :=
  ⟨by decide, by decide,
    USB_Keyboard_HandleMatrixKey_dispatch twoKeysHeld 4 1 (by decide) (by decide)⟩

/-! ## What one scan does to a cell -/

/-- The three outcomes of the loop body on the visited cell: the sample agrees (timer cleared),
the sample disagrees and the debounce time has not passed (timer armed or kept), or it has
passed (commit and callback). -/
theorem cellStep_cases (t raw : Nat) (c : Cell) :
    (raw = c.key_state ∧
      cellStep t raw c = (⟨c.key_state, c.key_state_last, 0⟩, none)) ∨
    (raw ≠ c.key_state ∧
      (t + 4294967296 - (if c.debounce_timer = 0 then t else c.debounce_timer)) % 4294967296
        < DEBOUNCE_TIME ∧
      cellStep t raw c =
        (⟨c.key_state, c.key_state_last,
          if c.debounce_timer = 0 then t else c.debounce_timer⟩, none)) ∨
    (raw ≠ c.key_state ∧
      DEBOUNCE_TIME ≤
        (t + 4294967296 - (if c.debounce_timer = 0 then t else c.debounce_timer)) % 4294967296 ∧
      cellStep t raw c = (⟨raw, c.key_state, 0⟩, some raw)) := by
  by_cases hraw : raw = c.key_state
  · exact Or.inl ⟨hraw, cellStep_agree t raw c hraw⟩
  · by_cases hlt : (t + 4294967296 - (if c.debounce_timer = 0 then t else c.debounce_timer))
        % 4294967296 < DEBOUNCE_TIME
    · exact Or.inr (Or.inl ⟨hraw, hlt, cellStep_wait t raw c hraw hlt⟩)
    · exact Or.inr (Or.inr ⟨hraw, by omega, cellStep_commit t raw c hraw (by omega)⟩)

theorem key_map_eq (row col : Fin 3) : key_map row col = row.val * 3 + col.val := by
  revert row col
  decide

/-- Commit and emit go together on every cell of a scan. -/
theorem Matrix_Keyboard_Scan_commit_emit (s : MatrixState) (t : Nat)
    (pin : Fin 3 → Fin 3 → Bool) (row col : Fin 3) :
    ((Matrix_Keyboard_Scan s t pin).1.key_state row col ≠ s.key_state row col →
      eventsFor row col (Matrix_Keyboard_Scan s t pin).2 =
        [⟨row.val * 3 + col.val, (Matrix_Keyboard_Scan s t pin).1.key_state row col⟩] ∧
      (Matrix_Keyboard_Scan s t pin).1.debounce_timer row col = 0 ∧
      (Matrix_Keyboard_Scan s t pin).1.key_state row col ≠
        (Matrix_Keyboard_Scan s t pin).1.key_state_last row col) ∧
    ((Matrix_Keyboard_Scan s t pin).1.key_state row col = s.key_state row col →
      eventsFor row col (Matrix_Keyboard_Scan s t pin).2 = []) := by
  obtain ⟨hcell, hev⟩ := Matrix_Keyboard_Scan_cell s t pin row col
  have hks := congrArg Cell.key_state hcell
  have hksl := congrArg Cell.key_state_last hcell
  have htm := congrArg Cell.debounce_timer hcell
  change (Matrix_Keyboard_Scan s t pin).1.key_state row col = _ at hks
  change (Matrix_Keyboard_Scan s t pin).1.key_state_last row col = _ at hksl
  change (Matrix_Keyboard_Scan s t pin).1.debounce_timer row col = _ at htm
  rw [hev, hks, hksl, htm]
  rcases cellStep_cases t (if pin row col then 1 else 0) (s.cell row col) with
    ⟨_, hstep⟩ | ⟨_, _, hstep⟩ | ⟨hraw, _, hstep⟩
  · rw [hstep]
    exact ⟨fun h => absurd rfl h, fun _ => rfl⟩
  · rw [hstep]
    exact ⟨fun h => absurd rfl h, fun _ => rfl⟩
  · rw [hstep]
    refine ⟨fun _ => ⟨?_, rfl, hraw⟩, fun h => absurd h hraw⟩
    show [KeyEvent.mk (key_map row col) _] = _
    rw [key_map_eq]

/-- Every callback invocation of a run of the loop body over a list of cells is one that was
there before or carries the key code of one of the cells. -/
theorem scanCells_events (t : Nat) (pin : Fin 3 → Fin 3 → Bool) :
    ∀ (cells : List (Fin 3 × Fin 3)) (acc : MatrixState × List KeyEvent) (e : KeyEvent),
      e ∈ (scanCells t pin cells acc).2 →
      e ∈ acc.2 ∨ ∃ row col, e.key_code = key_map row col := by
  intro cells
  induction cells with
  | nil => intro acc e he; exact Or.inl he
  | cons rc rest ih =>
    intro acc e he
    have hfold : scanCells t pin (rc :: rest) acc =
        scanCells t pin rest (scanCell t (pin rc.1 rc.2) rc.1 rc.2 acc) := rfl
    rw [hfold] at he
    rcases ih _ e he with h | h
    · rw [(scanCell_same t (pin rc.1 rc.2) rc.1 rc.2 acc).2] at h
      rcases List.mem_append.1 h with h1 | h2
      · exact Or.inl h1
      · right
        refine ⟨rc.1, rc.2, ?_⟩
        cases hc : (cellStep t (if pin rc.1 rc.2 then 1 else 0) (acc.1.cell rc.1 rc.2)).2 with
        | none => simp [hc, cellEvents] at h2
        | some v =>
          simp only [hc, cellEvents, List.mem_singleton] at h2
          rw [h2]
    · exact Or.inr h

/-- C21. Commit implies emit, and nothing else emits.  In every `Matrix_Keyboard_Scan`, from
every state and for every cell `(row, col)`: when the scan changes `key_state[row][col]`,
`Matrix_Key_Callback` is invoked for that cell exactly once, with `key_code == row * 3 + col`
and `pressed` equal to the new `key_state[row][col]`, the cell's debounce timer is 0 afterwards
and the new `key_state` differs from `key_state_last`; when the scan leaves
`key_state[row][col]` as it was, the callback is not invoked for that cell; and every
invocation of the callback in the scan is the one of a cell whose `key_state` the scan
changed. -/
theorem commit_iff_emit (s : MatrixState) (t : Nat) (pin : Fin 3 → Fin 3 → Bool)
    (row col : Fin 3) :
    ((Matrix_Keyboard_Scan s t pin).1.key_state row col ≠ s.key_state row col →
      eventsFor row col (Matrix_Keyboard_Scan s t pin).2 =
        [⟨row.val * 3 + col.val, (Matrix_Keyboard_Scan s t pin).1.key_state row col⟩] ∧
      (Matrix_Keyboard_Scan s t pin).1.debounce_timer row col = 0 ∧
      (Matrix_Keyboard_Scan s t pin).1.key_state row col ≠
        (Matrix_Keyboard_Scan s t pin).1.key_state_last row col) ∧
    ((Matrix_Keyboard_Scan s t pin).1.key_state row col = s.key_state row col →
      eventsFor row col (Matrix_Keyboard_Scan s t pin).2 = []) ∧
    (∀ e ∈ (Matrix_Keyboard_Scan s t pin).2, ∃ r c : Fin 3,
      e = ⟨r.val * 3 + c.val, (Matrix_Keyboard_Scan s t pin).1.key_state r c⟩ ∧
      (Matrix_Keyboard_Scan s t pin).1.key_state r c ≠ s.key_state r c) := by
  refine ⟨(Matrix_Keyboard_Scan_commit_emit s t pin row col).1,
    (Matrix_Keyboard_Scan_commit_emit s t pin row col).2, ?_⟩
  intro e he
  have hsrc := scanCells_events t pin scanOrder (s, []) e
    (by rw [← Matrix_Keyboard_Scan_eq]; exact he)
  rcases hsrc with h | ⟨r, c, hk⟩
  · exact absurd h (List.not_mem_nil _)
  · have hmem : e ∈ eventsFor r c (Matrix_Keyboard_Scan s t pin).2 := by
      simp [eventsFor, he, hk]
    obtain ⟨hchg, hsame⟩ := Matrix_Keyboard_Scan_commit_emit s t pin r c
    by_cases hks : (Matrix_Keyboard_Scan s t pin).1.key_state r c = s.key_state r c
    · rw [hsame hks] at hmem
      exact absurd hmem (List.not_mem_nil _)
    · rw [(hchg hks).1] at hmem
      exact ⟨r, c, List.mem_singleton.1 hmem, hks⟩

/-- C22. Cell invariant: in the state set up by `Matrix_Keyboard_Init` every debounce timer is
0; after a `Matrix_Keyboard_Scan` from any state, and so after the last scan of every sequence
of scans run from the initial state, every cell whose raw sample in that scan equals the
resulting `key_state[row][col]` has `debounce_timer[row][col] == 0`. -/
theorem no_debounce_in_flight (s : MatrixState) (ins : List ScanInput) (x : ScanInput)
    (row col : Fin 3) :
    Matrix_Keyboard_Init.debounce_timer row col = 0 ∧
    (x.raw row col = (Matrix_Keyboard_Scan s x.tick x.pin_reset).1.key_state row col →
      (Matrix_Keyboard_Scan s x.tick x.pin_reset).1.debounce_timer row col = 0) ∧
    (x.raw row col = (stateAfter Matrix_Keyboard_Init (ins ++ [x])).key_state row col →
      (stateAfter Matrix_Keyboard_Init (ins ++ [x])).debounce_timer row col = 0) := by
  have hone : ∀ s0 : MatrixState,
      x.raw row col = (Matrix_Keyboard_Scan s0 x.tick x.pin_reset).1.key_state row col →
      (Matrix_Keyboard_Scan s0 x.tick x.pin_reset).1.debounce_timer row col = 0 := by
    intro s0
    obtain ⟨hcell, _⟩ := Matrix_Keyboard_Scan_cell s0 x.tick x.pin_reset row col
    have hks := congrArg Cell.key_state hcell
    have htm := congrArg Cell.debounce_timer hcell
    change (Matrix_Keyboard_Scan s0 x.tick x.pin_reset).1.key_state row col = _ at hks
    change (Matrix_Keyboard_Scan s0 x.tick x.pin_reset).1.debounce_timer row col = _ at htm
    rw [hks, htm]
    rcases cellStep_cases x.tick (if x.pin_reset row col then 1 else 0) (s0.cell row col) with
      ⟨_, hstep⟩ | ⟨hraw, _, hstep⟩ | ⟨_, _, hstep⟩
    · rw [hstep]; intro _; rfl
    · rw [hstep]; intro h; exact absurd h hraw
    · rw [hstep]; intro _; rfl
  refine ⟨rfl, hone s, ?_⟩
  rw [stateAfter_append]
  exact hone (stateAfter Matrix_Keyboard_Init ins)

/-! ## Sequences of scans: alternation, wrap-around -/

theorem eventsFor_append (row col : Fin 3) (l1 l2 : List KeyEvent) :
    eventsFor row col (l1 ++ l2) = eventsFor row col l1 ++ eventsFor row col l2 := by
  simp [eventsFor, List.filter_append]

/-- From a state in which `key_state` of the cell is 0 or 1, it stays 0 or 1 through every
sequence of scans, and the callback invocations of the cell alternate, the first one carrying
the complement of the starting `key_state`. -/
theorem alternation_from (row col : Fin 3) (ins : List ScanInput) :
    ∀ (s : MatrixState), (s.key_state row col = 0 ∨ s.key_state row col = 1) →
      ((stateAfter s ins).key_state row col = 0 ∨ (stateAfter s ins).key_state row col = 1) ∧
      alternatesFrom (1 - s.key_state row col)
        ((eventsFor row col (eventsOf s ins)).map KeyEvent.pressed) := by
  induction ins with
  | nil =>
    intro s hs
    exact ⟨hs, trivial⟩
  | cons x xs ih =>
    intro s hs
    obtain ⟨hcell, hev⟩ := scanWith_cell s x row col
    have hks := congrArg Cell.key_state hcell
    change (scanWith s x).1.key_state row col = _ at hks
    have hraw01 : x.raw row col = 0 ∨ x.raw row col = 1 := by
      unfold ScanInput.raw
      split
      · exact Or.inr rfl
      · exact Or.inl rfl
    show ((stateAfter (scanWith s x).1 xs).key_state row col = 0 ∨
        (stateAfter (scanWith s x).1 xs).key_state row col = 1) ∧
      alternatesFrom (1 - s.key_state row col)
        ((eventsFor row col ((scanWith s x).2 ++ eventsOf (scanWith s x).1 xs)).map
          KeyEvent.pressed)
    rw [eventsFor_append, hev, List.map_append]
    rcases cellStep_cases x.tick (x.raw row col) (s.cell row col) with
      ⟨_, hstep⟩ | ⟨_, _, hstep⟩ | ⟨hraw, _, hstep⟩
    · rw [hstep] at hks ⊢
      have hsame : (scanWith s x).1.key_state row col = s.key_state row col := hks
      obtain ⟨h1, h2⟩ := ih (scanWith s x).1 (by rw [hsame]; exact hs)
      rw [hsame] at h2
      exact ⟨h1, h2⟩
    · rw [hstep] at hks ⊢
      have hsame : (scanWith s x).1.key_state row col = s.key_state row col := hks
      obtain ⟨h1, h2⟩ := ih (scanWith s x).1 (by rw [hsame]; exact hs)
      rw [hsame] at h2
      exact ⟨h1, h2⟩
    · rw [hstep] at hks ⊢
      have hnew : (scanWith s x).1.key_state row col = x.raw row col := hks
      have hraw2 : x.raw row col ≠ s.key_state row col := hraw
      obtain ⟨h1, h2⟩ := ih (scanWith s x).1 (by rw [hnew]; exact hraw01)
      rw [hnew] at h2
      refine ⟨h1, ?_⟩
      show alternatesFrom (1 - s.key_state row col)
        (x.raw row col :: (eventsFor row col (eventsOf (scanWith s x).1 xs)).map KeyEvent.pressed)
      have hflip : x.raw row col = 1 - s.key_state row col := by
        rcases hs with h | h <;> rcases hraw01 with h3 | h3 <;> omega
      have hback : 1 - (1 - s.key_state row col) = 1 - x.raw row col := by
        rcases hs with h | h <;> rcases hraw01 with h3 | h3 <;> omega
      exact ⟨hflip, by rw [hback]; exact h2⟩

/-- C23. Events alternate per cell: for every sequence of `Matrix_Keyboard_Scan` calls run from
the state set up by `Matrix_Keyboard_Init`, with arbitrary raw samples and ticks, and for every
cell, `key_state[row][col]` is 0 or 1 after each of the scans of the sequence, and the `pressed`
values of the callback invocations that carry the cell's key code are 1, 0, 1, 0, ... in call
order, beginning with 1. -/
theorem events_alternate (ins : List ScanInput) (row col : Fin 3) :
    (∀ m, (stateAfter Matrix_Keyboard_Init (ins.take m)).key_state row col = 0 ∨
      (stateAfter Matrix_Keyboard_Init (ins.take m)).key_state row col = 1) ∧
    alternatesFrom 1
      ((eventsFor row col (eventsOf Matrix_Keyboard_Init ins)).map KeyEvent.pressed) ∧
    (∀ e ∈ eventsFor row col (eventsOf Matrix_Keyboard_Init ins),
      e.key_code = row.val * 3 + col.val) := by
  refine ⟨fun m => (alternation_from row col (ins.take m) Matrix_Keyboard_Init (Or.inl rfl)).1,
    (alternation_from row col ins Matrix_Keyboard_Init (Or.inl rfl)).2, ?_⟩
  intro e he
  have := (List.mem_filter.1 he).2
  rw [← key_map_eq]
  simpa using this

/-- C24. Tick wrap-around: let the timer of a cell be armed with a value `s != 0` (32 bits),
let the scan run `d < 2^32` ticks later, at tick `(s + d) mod 2^32`, and let the raw sample
still disagree with `key_state`.  Then the scan commits (new `key_state` is the raw state,
timer cleared, one callback with that state) when `d >= 20`, and changes nothing (no callback,
timer still `s`) when `d < 20`; so it commits if and only if `d >= 20`, whether or not the tick
counter has wrapped past zero in between. -/
theorem debounce_wrap_around (st : MatrixState) (pin : Fin 3 → Fin 3 → Bool) (row col : Fin 3)
    (s d : Nat) (hs0 : s ≠ 0) (hs : s < 4294967296) (hd : d < 4294967296)
    (htimer : st.debounce_timer row col = s)
    (hraw : (if pin row col then 1 else 0) ≠ st.key_state row col) :
    (DEBOUNCE_TIME ≤ d →
      (Matrix_Keyboard_Scan st ((s + d) % 4294967296) pin).1.key_state row col =
        (if pin row col then 1 else 0) ∧
      (Matrix_Keyboard_Scan st ((s + d) % 4294967296) pin).1.debounce_timer row col = 0 ∧
      eventsFor row col (Matrix_Keyboard_Scan st ((s + d) % 4294967296) pin).2 =
        [⟨key_map row col, if pin row col then 1 else 0⟩]) ∧
    (d < DEBOUNCE_TIME →
      (Matrix_Keyboard_Scan st ((s + d) % 4294967296) pin).1.key_state row col =
        st.key_state row col ∧
      (Matrix_Keyboard_Scan st ((s + d) % 4294967296) pin).1.debounce_timer row col = s ∧
      eventsFor row col (Matrix_Keyboard_Scan st ((s + d) % 4294967296) pin).2 = []) ∧
    ((Matrix_Keyboard_Scan st ((s + d) % 4294967296) pin).1.key_state row col ≠
        st.key_state row col ↔ DEBOUNCE_TIME ≤ d) := by
  obtain ⟨hcell, hev⟩ := Matrix_Keyboard_Scan_cell st ((s + d) % 4294967296) pin row col
  have hks := congrArg Cell.key_state hcell
  have htm := congrArg Cell.debounce_timer hcell
  change (Matrix_Keyboard_Scan st ((s + d) % 4294967296) pin).1.key_state row col = _ at hks
  change (Matrix_Keyboard_Scan st ((s + d) % 4294967296) pin).1.debounce_timer row col = _ at htm
  have hc0 : (st.cell row col).debounce_timer = s := htimer
  have hraw2 : (if pin row col then 1 else 0) ≠ (st.cell row col).key_state := hraw
  have helapsed : ((s + d) % 4294967296 + 4294967296 -
      (if (st.cell row col).debounce_timer = 0 then (s + d) % 4294967296
        else (st.cell row col).debounce_timer)) % 4294967296 = d := by
    rw [hc0, if_neg hs0]
    omega
  rw [hks, htm, hev]
  by_cases h20 : DEBOUNCE_TIME ≤ d
  · have hstep := cellStep_commit ((s + d) % 4294967296) (if pin row col then 1 else 0)
      (st.cell row col) hraw2 (by rw [helapsed]; exact h20)
    rw [hstep]
    refine ⟨fun _ => ⟨rfl, rfl, rfl⟩, fun h => absurd h (by omega), ?_⟩
    exact ⟨fun _ => h20, fun _ => hraw⟩
  · have hstep := cellStep_wait ((s + d) % 4294967296) (if pin row col then 1 else 0)
      (st.cell row col) hraw2 (by rw [helapsed]; omega)
    rw [hstep]
    refine ⟨fun h => absurd h h20, fun _ => ⟨rfl, ?_, rfl⟩, ?_⟩
    · show (if (st.cell row col).debounce_timer = 0 then (s + d) % 4294967296
        else (st.cell row col).debounce_timer) = s
      rw [hc0, if_neg hs0]
    · exact ⟨fun h => absurd rfl h, fun h => absurd h h20⟩

/-- Tick wrap-around (C24) at a timer armed 10 ticks before the wrap and a scan 25 ticks later,
at tick 15. -/
theorem debounce_wrap_around_witness :
    4294967286 ≠ 0 ∧ 4294967286 < 4294967296 ∧ 25 < 4294967296 ∧
    (timerArmedAt 4294967286).debounce_timer 0 0 = 4294967286 ∧
    (if onlyKeyDown 0 0 0 0 then 1 else 0) ≠ (timerArmedAt 4294967286).key_state 0 0 ∧
    ((DEBOUNCE_TIME ≤ 25 →
      (Matrix_Keyboard_Scan (timerArmedAt 4294967286) ((4294967286 + 25) % 4294967296)
        (onlyKeyDown 0 0)).1.key_state 0 0 = (if onlyKeyDown 0 0 0 0 then 1 else 0) ∧
      (Matrix_Keyboard_Scan (timerArmedAt 4294967286) ((4294967286 + 25) % 4294967296)
        (onlyKeyDown 0 0)).1.debounce_timer 0 0 = 0 ∧
      eventsFor 0 0 (Matrix_Keyboard_Scan (timerArmedAt 4294967286)
        ((4294967286 + 25) % 4294967296) (onlyKeyDown 0 0)).2 =
        [⟨key_map 0 0, if onlyKeyDown 0 0 0 0 then 1 else 0⟩]) ∧
    (25 < DEBOUNCE_TIME →
      (Matrix_Keyboard_Scan (timerArmedAt 4294967286) ((4294967286 + 25) % 4294967296)
        (onlyKeyDown 0 0)).1.key_state 0 0 = (timerArmedAt 4294967286).key_state 0 0 ∧
      (Matrix_Keyboard_Scan (timerArmedAt 4294967286) ((4294967286 + 25) % 4294967296)
        (onlyKeyDown 0 0)).1.debounce_timer 0 0 = 4294967286 ∧
      eventsFor 0 0 (Matrix_Keyboard_Scan (timerArmedAt 4294967286)
        ((4294967286 + 25) % 4294967296) (onlyKeyDown 0 0)).2 = []) ∧
    ((Matrix_Keyboard_Scan (timerArmedAt 4294967286) ((4294967286 + 25) % 4294967296)
        (onlyKeyDown 0 0)).1.key_state 0 0 ≠ (timerArmedAt 4294967286).key_state 0 0 ↔
      DEBOUNCE_TIME ≤ 25)) :=
  ⟨by decide, by decide, by decide, by decide, by decide,
    debounce_wrap_around (timerArmedAt 4294967286) (onlyKeyDown 0 0) 0 0 4294967286 25
      (by decide) (by decide) (by decide) (by decide) (by decide)⟩

/-- C25. An out-of-range matrix index is rejected without effect: from every state, for every
`matrix_key >= 9` and every `pressed`, `USB_Keyboard_HandleMatrixKey` returns without reading
`matrix_to_usb_hid`, leaves `pressed_keys`, `key_count`, `keyboard_report` and
`keyboard_report_last` as they were and hands nothing to the transport, whether or not the
current report differs from the one transmitted last. -/
theorem USB_Keyboard_HandleMatrixKey_out_of_range (s : UsbState) (matrix_key pressed : Nat)
    (h : 9 ≤ matrix_key) :
    USB_Keyboard_HandleMatrixKey s matrix_key pressed = some (s, []) ∧
    (UsbOp.handleMatrixKey matrix_key pressed).step s = some (s, []) ∧
    matrix_to_usb_hid[matrix_key]? = none := by
  have hcall : USB_Keyboard_HandleMatrixKey s matrix_key pressed = some (s, []) := by
    unfold USB_Keyboard_HandleMatrixKey
    rw [if_pos h]
  refine ⟨hcall, ?_, ?_⟩
  · simp [UsbOp.step, hcall]
  · exact List.getElem?_eq_none (by show 9 ≤ matrix_key; exact h)

/-- The rejection of an out-of-range index (C25) at the state `fourKeysHeld`, whose current
report differs from the report transmitted last, for the index 9. -/
theorem USB_Keyboard_HandleMatrixKey_out_of_range_witness :
    9 ≤ 9 ∧
    (USB_Keyboard_HandleMatrixKey fourKeysHeld 9 1 = some (fourKeysHeld, []) ∧
    (UsbOp.handleMatrixKey 9 1).step fourKeysHeld = some (fourKeysHeld, []) ∧
    matrix_to_usb_hid[9]? = none) :=
  ⟨by decide, USB_Keyboard_HandleMatrixKey_out_of_range fourKeysHeld 9 1 (by decide)⟩
